import Mathlib

/-!
Verification of the `fulf` fuzzy line-search pipeline.

Byte strings are modelled as `List Nat` (each element one byte).
The zero-copy line iterator `ByteLines` (src/crates/fulf/src/ascii/bytelines.rs)
is modelled by `memchr2`, `skip_newline`, `bytelinesNext`, `byteLines` and
their back-to-front counterparts.  The interface layer
(src/crates/fulf/src/interface/mod.rs) is modelled further below: the
round-robin sharding of `setter`, the thread spawning of `spawner`, the
aggregator loop, the path formatting of `apply`, and the entry points
`with_fzy_algo` / `default_searcher`.

Iterators are modelled by a step function (a faithful translation of the
source's `next`) plus a fuel-indexed iteration; since every step consumes at
least one byte, fuel equal to the input length is always sufficient, which
is proved once and used to derive the step-unfolding equations.  All
definitions are structurally recursive, hence kernel-computable.
-/

namespace Fulf

/-- Newline char (`NL` in bytelines.rs). -/
def NL : Nat := 10

/-- `\r` char (`CR` in bytelines.rs). -/
def CR : Nat := 13

/-- The byte predicate searched by `memchr2(NL, CR, text)`: is the byte one
of the two newline bytes? -/
def isNLByte (b : Nat) : Bool := b == NL || b == CR

/-- The two-byte terminator test of `skip_newline`: does `a` directly
followed by `b` form `\r\n` or `\n\r`?  (The slice patterns
`[CR, NL, ..] | [NL, CR, ..]` of the source.) -/
def isPair (a b : Nat) : Bool := (a == CR && b == NL) || (a == NL && b == CR)

/-- Model of `memchr::memchr2(NL, CR, text)`: index of the first byte that is
`NL` or `CR`, if any. -/
def memchr2 : List Nat → Option Nat
  | [] => none
  | b :: rest => if isNLByte b then some 0 else (memchr2 rest).map (· + 1)

/-- Model of `memchr::memrchr2(NL, CR, text)`: index of the last byte that
is `NL` or `CR` (that is, the mirrored index of the first such byte of the
reversed list). -/
def memrchr2 (l : List Nat) : Option Nat :=
  (memchr2 l.reverse).map (fun j => l.length - 1 - j)

/-- `skip_newline` from bytelines.rs: called on the tail of the text that
starts at a newline byte; removes a two-byte terminator `\r\n`/`\n\r` whole
and any other first byte alone.  (The source never calls it on an empty
slice; the `[]` case is vacuous.) -/
def skip_newline (t : List Nat) : List Nat :=
  match t with
  | a :: b :: rest => if isPair a b then rest else b :: rest
  | _ :: rest => rest
  | [] => []

/-- `skip_newline_back` from bytelines.rs: removes a trailing
`\r\n`/`\n\r` pair whole (patterns `[.., CR, NL] | [.., NL, CR]`), and any
other last byte alone. -/
def skip_newline_back (t : List Nat) : List Nat :=
  match t.getLast?, t.dropLast.getLast? with
  | some a, some b => if isPair b a then t.dropLast.dropLast else t.dropLast
  | _, _ => t.dropLast

/-- `ByteLines::next`: on a non-empty slice, yield the bytes before the
first newline byte and keep the remainder after `skip_newline`; with no
newline byte the whole slice is the last line.  Returns
`(item, new state)`. -/
def bytelinesNext (text : List Nat) : Option (List Nat × List Nat) :=
  if text.isEmpty then none
  else
    match memchr2 text with
    | some i => some (text.take i, skip_newline (text.drop i))
    | none => some (text, [])

/-- `ByteLines::next_back`: on a non-empty slice, yield the bytes after the
last newline byte and keep the prefix shortened by `skip_newline_back`. -/
def bytelinesNextBack (text : List Nat) : Option (List Nat × List Nat) :=
  if text.isEmpty then none
  else
    match memrchr2 text with
    | some i => some (text.drop (i + 1), skip_newline_back (text.take (i + 1)))
    | none => some (text, [])

/-- Fuel-indexed iteration of `bytelinesNext`. -/
def byteLinesFuel : Nat → List Nat → List (List Nat)
  | 0, _ => []
  | f + 1, text =>
    match bytelinesNext text with
    | none => []
    | some (l, rest) => l :: byteLinesFuel f rest

/-- All lines yielded by front-to-back iteration of `ByteLines` (every step
consumes at least one byte, so `text.length` fuel always suffices). -/
def byteLines (text : List Nat) : List (List Nat) :=
  byteLinesFuel text.length text

/-- Fuel-indexed iteration of `bytelinesNextBack`. -/
def byteLinesBackFuel : Nat → List Nat → List (List Nat)
  | 0, _ => []
  | f + 1, text =>
    match bytelinesNextBack text with
    | none => []
    | some (l, rest) => l :: byteLinesBackFuel f rest

/-- All lines yielded by back-to-front iteration of `ByteLines`. -/
def byteLinesBack (text : List Nat) : List (List Nat) :=
  byteLinesBackFuel text.length text

/-- `ByteLines::size_hint`: `(0, Some(len / 2))`. -/
def byteLinesSizeHint (text : List Nat) : Nat × Option Nat :=
  (0, some (text.length / 2))

/-- The terminator bytes `skip_newline` consumes from the front of `t`:
the whole pair for `\r\n`/`\n\r`, the single first byte otherwise. -/
def termTake (t : List Nat) : List Nat :=
  match t with
  | a :: b :: _ => if isPair a b then [a, b] else [a]
  | a :: _ => [a]
  | [] => []

/-- Fuel-indexed front-to-back iteration recording, for every yielded line,
also the terminator bytes consumed right after it (empty for the final
unterminated line). -/
def byteLineSegsFuel : Nat → List Nat → List (List Nat × List Nat)
  | 0, _ => []
  | f + 1, text =>
    if text.isEmpty then []
    else
      match memchr2 text with
      | some i =>
        (text.take i, termTake (text.drop i)) ::
          byteLineSegsFuel f (skip_newline (text.drop i))
      | none => [(text, [])]

/-- The `(line, consumed terminator)` pairs of a full front-to-back
iteration of `ByteLines`. -/
def byteLineSegs (text : List Nat) : List (List Nat × List Nat) :=
  byteLineSegsFuel text.length text

/-- Fuel-indexed count of `skip_newline` steps needed to consume a slice
entirely (the number of terminator tokens of a pure newline run). -/
def tokCountFuel : Nat → List Nat → Nat
  | 0, _ => 0
  | f + 1, r => if r.isEmpty then 0 else tokCountFuel f (skip_newline r) + 1

/-- Number of terminator tokens `skip_newline` splits a slice into. -/
def tokCount (r : List Nat) : Nat := tokCountFuel r.length r

/-- Fuel-indexed residual of tokenisation by `skip_newline`: the final
single byte left over when the front-to-back pairing ends on an odd
element, if any. -/
def tokResidualFuel : Nat → List Nat → Option Nat
  | 0, _ => none
  | f + 1, r =>
    match r with
    | [] => none
    | [a] => some a
    | a :: b :: t => if isPair a b then tokResidualFuel f t else tokResidualFuel f (b :: t)

/-- Residual byte of the front-to-back tokenisation by `skip_newline`. -/
def tokResidual (r : List Nat) : Option Nat := tokResidualFuel r.length r

/-! ### Interface layer (src/crates/fulf/src/interface/mod.rs) -/

/-- `usize` modulus: wrapping arithmetic of the 64-bit total counter. -/
def USIZE_MOD : Nat := 2 ^ 64

/-- `usize::wrapping_add`. -/
def usize_wrapping_add (a b : Nat) : Nat := (a + b) % USIZE_MOD

/-- `u8` addition as compiled in release mode: wraps modulo 256 (with debug
assertions it panics on overflow instead). -/
def u8_wrapping_add (a b : Nat) : Nat := (a + b) % 256

/-- `files_chunks[index].push(path)`: pushes onto the chunk at `index`;
`none` models the index-out-of-bounds panic. -/
def pushAt {α : Type} (chunks : List (List α)) (i : Nat) (x : α) :
    Option (List (List α)) :=
  if h : i < chunks.length then some (chunks.set i (chunks[i] ++ [x])) else none

/-- The round-robin loop of `setter` over the walked file paths: `index` is
incremented, wrapped to `0` when it reaches `threadcount`, and the path is
pushed into `files_chunks[index]`.  `none` models a panic. -/
def rrLoop {α : Type} (tc : Nat) :
    List (List α) × Nat → List α → Option (List (List α) × Nat)
  | st, [] => some st
  | st, p :: ps =>
    let i0 := st.2 + 1
    let i1 := if i0 == tc then 0 else i0
    match pushAt st.1 i1 p with
    | some chunks => rrLoop tc (chunks, i1) ps
    | none => none

/-- The shard vectors `setter` builds before calling `spawner`:
`threadcount = bonus_threads + 1` in `u8` arithmetic, `threadcount` empty
chunks, then the round-robin loop.  `none` models a panic. -/
def setterShards {α : Type} (bonus_threads : Nat) (paths : List α) :
    Option (List (List α)) :=
  let threadcount := u8_wrapping_add bonus_threads 1
  (rrLoop threadcount (List.replicate threadcount [], 0) paths).map Prod.fst

/-- The worker threads `spawner` launches: its `for_each` pushes one spawned
thread per element of `files_chunks`, unconditionally.  Each entry is the
shard handed to that worker. -/
def spawnerThreads {α : Type} (chunks : List (List α)) : List (List α) :=
  chunks.foldl (fun threads files => threads ++ [files]) []

/-- One pass of the aggregator loop of `spawner` on a received batch
`inner`: empty batches are ignored; otherwise the total is wrap-added, the
batch is appended onto the shared buffer, the user hook `sortfn` reorders
the buffer (it receives a mutable slice, so it cannot resize), and the
buffer is truncated to `capnum`. -/
def aggStep {α : Type} (capnum : Nat) (sortfn : List α → List α)
    (st : List α × Nat) (inner : List α) : List α × Nat :=
  if inner.isEmpty then st
  else
    let total := usize_wrapping_add st.2 inner.length
    let merged := sortfn (st.1 ++ inner)
    (merged.take capnum, total)

/-- The aggregator loop of `spawner`: starting from an empty buffer and a
zero total, fold `aggStep` over the batches received until the channel
closes; the result is the returned `(vector, total)`. -/
def aggregate {α : Type} (capnum : Nat) (sortfn : List α → List α)
    (batches : List (List α)) : List α × Nat :=
  batches.foldl (aggStep capnum sortfn) ([], 0)

/-- UTF-8 continuation byte (`0x80 ..= 0xBF`). -/
def isContByte (b : Nat) : Bool := 0x80 ≤ b && b ≤ 0xBF

/-- `str::is_char_boundary(i)`: true at `0` and at the total length, and at
an interior index holding a non-continuation byte. -/
def isCharBoundary (s : List Nat) (i : Nat) : Bool :=
  i == 0 ||
    match s[i]? with
    | some b => !(isContByte b)
    | none => i == s.length

/-- `str::get(i..)`: the suffix from byte index `i` when `i` is a char
boundary, and `None` otherwise. -/
def strGetFrom (s : List Nat) (i : Nat) : Option (List Nat) :=
  if isCharBoundary s i then some (s.drop i) else none

/-- `std::path::MAIN_SEPARATOR` as a byte: `/` on the unix build platform
(a one-byte UTF-8 char, so `ch.encode_utf8` has length 1 and a decoded
first char equals `/` exactly when the first byte is 47). -/
def MAIN_SEPARATOR : Nat := 47

/-- The display-path computation inside `apply`: slice the lossily converted
path from byte index `root_folder.len()` (falling back to the whole path
when that is not a char boundary), then drop one leading platform separator
char if present. -/
def path_without_root (path_with_root root_folder : List Nat) : List Nat :=
  match strGetFrom path_with_root root_folder.length with
  | none => path_with_root
  | some p =>
    match p with
    | [] => p
    | b :: rest => if b == MAIN_SEPARATOR then rest else p

/-- `usize::next_power_of_two` for positive arguments (`1` on `0` and `1`). -/
def usizeNextPow2 (n : Nat) : Nat := if n ≤ 1 then 1 else 2 ^ Nat.clog 2 n

/-- The entry point `with_fzy_algo`, with the filesystem-dependent part
abstracted: `root_folder` is `path.to_str()` (`none` for a non-UTF-8 root)
and `pipeline` stands for the configured `setter` run, invoked only when
the guards pass.  An empty needle or a needle longer than `max_line_len`
returns `Default::default()`, which for `Option` is `None`. -/
def with_fzy_algo {α : Type} (needle : List Nat) (max_line_len : Nat)
    (root_folder : Option (List Nat)) (pipeline : Unit → List α × Nat) :
    Option (List α × Nat) :=
  if needle.isEmpty || decide (max_line_len < needle.length) then none
  else
    match root_folder with
    | none => none
    | some _ => some (pipeline ())

/-- The entry point `default_searcher`: `with_fzy_algo` with
`max_line_len = 1024usize.next_power_of_two()`. -/
def default_searcher {α : Type} (needle : List Nat)
    (root_folder : Option (List Nat)) (pipeline : Unit → List α × Nat) :
    Option (List α × Nat) :=
  with_fzy_algo needle (usizeNextPow2 1024) root_folder pipeline

/-! ### UTF-8 validation and `str::lines` (the `generic_utf8` path) -/

/-- Second-byte range of a three-byte UTF-8 sequence, per leading byte
(`0xE0` needs `0xA0..=0xBF`, `0xED` needs `0x80..=0x9F`). -/
def utf8SecondByteOk3 (b0 b1 : Nat) : Bool :=
  if b0 == 0xE0 then 0xA0 ≤ b1 && b1 ≤ 0xBF
  else if b0 == 0xED then 0x80 ≤ b1 && b1 ≤ 0x9F
  else isContByte b1

/-- Second-byte range of a four-byte UTF-8 sequence, per leading byte
(`0xF0` needs `0x90..=0xBF`, `0xF4` needs `0x80..=0x8F`). -/
def utf8SecondByteOk4 (b0 b1 : Nat) : Bool :=
  if b0 == 0xF0 then 0x90 ≤ b1 && b1 ≤ 0xBF
  else if b0 == 0xF4 then 0x80 ≤ b1 && b1 ≤ 0x8F
  else isContByte b1

/-- A single complete, valid UTF-8 char encoding (1 to 4 bytes), with the
exact std range table (rejecting overlong forms, surrogates and values
beyond U+10FFFF). -/
def validCharB : List Nat → Bool
  | [a] => a ≤ 0x7F
  | [a, b] => (0xC2 ≤ a && a ≤ 0xDF) && isContByte b
  | [a, b, c] => (0xE0 ≤ a && a ≤ 0xEF) && utf8SecondByteOk3 a b && isContByte c
  | [a, b, c, d] =>
    (0xF0 ≤ a && a ≤ 0xF4) && utf8SecondByteOk4 a b && isContByte c && isContByte d
  | _ => false

/-- The std `utf8_char_width` table: expected sequence length from the
leading byte (`0` for bytes that can never start a sequence). -/
def utf8SeqLen (b0 : Nat) : Nat :=
  if b0 ≤ 0x7F then 1
  else if 0xC2 ≤ b0 ∧ b0 ≤ 0xDF then 2
  else if 0xE0 ≤ b0 ∧ b0 ≤ 0xEF then 3
  else if 0xF0 ≤ b0 ∧ b0 ≤ 0xF4 then 4
  else 0

/-- One step of the std UTF-8 validator used by `str::from_utf8`: the byte
length of the valid encoded char at the head of the list (the width given
by the leading byte, with all its range checks), or `none`. -/
def utf8CharLen (l : List Nat) : Option Nat :=
  match l with
  | [] => none
  | b0 :: _ =>
    if utf8SeqLen b0 ≠ 0 ∧ utf8SeqLen b0 ≤ l.length ∧
        validCharB (l.take (utf8SeqLen b0)) = true then
      some (utf8SeqLen b0)
    else none

/-- Fuel-indexed greedy UTF-8 validation. -/
def utf8ValidUpToFuel : Nat → List Nat → Nat
  | 0, _ => 0
  | f + 1, l =>
    match utf8CharLen l with
    | some k => k + utf8ValidUpToFuel f (l.drop k)
    | none => 0

/-- `Utf8Error::valid_up_to` (and the full length on success): how many
leading bytes the std validator accepts. -/
def utf8ValidUpTo (l : List Nat) : Nat := utf8ValidUpToFuel l.length l

/-- A byte list is valid UTF-8 when it is a concatenation of valid char
encodings. -/
inductive ValidUtf8 : List Nat → Prop
  | nil : ValidUtf8 []
  | cons (c rest : List Nat) : validCharB c = true → ValidUtf8 rest →
      ValidUtf8 (c ++ rest)

/-- Index of the first `\n` byte, if any (the split point of
`str::split_inclusive('\n')`). -/
def memchrNL : List Nat → Option Nat
  | [] => none
  | b :: rest => if b == 10 then some 0 else (memchrNL rest).map (· + 1)

/-- Fuel-indexed `str::split_inclusive('\n')`: pieces each keep their
trailing `\n`; the final piece may lack one; the empty string has no
pieces. -/
def splitIncNLFuel : Nat → List Nat → List (List Nat)
  | 0, _ => []
  | f + 1, s =>
    if s.isEmpty then []
    else
      match memchrNL s with
      | some i => s.take (i + 1) :: splitIncNLFuel f (s.drop (i + 1))
      | none => [s]

/-- `str::split_inclusive('\n')` on a byte list. -/
def splitIncNL (s : List Nat) : List (List Nat) := splitIncNLFuel s.length s

/-- The per-piece map of `str::lines`: strip one trailing `\n`, and only
after that succeeded, one trailing `\r`. -/
def lineMapPiece (p : List Nat) : List Nat :=
  if p.getLast? == some 10 then
    let q := p.dropLast
    if q.getLast? == some 13 then q.dropLast else q
  else p

/-- `str::lines` on a byte list: `split_inclusive('\n')` then strip the
terminators piece-wise. -/
def rustLines (s : List Nat) : List (List Nat) :=
  (splitIncNL s).map lineMapPiece

/-- The lines `generic_utf8` iterates for one file: `str::lines` over the
longest valid UTF-8 prefix of the raw bytes (`from_utf8` succeeds, or the
buffer is cut at `valid_up_to`). -/
def generic_utf8_lines (filebuf : List Nat) : List (List Nat) :=
  rustLines (filebuf.take (utf8ValidUpTo filebuf))

/-- Modelled from the spec: the encoding-triage helper
`ascii::ascii_from_bytes` called by `AsciiAlgo::for_each` lives in the
`ascii` module, whose triage source file is not among the provided files;
spec section 4.2 defines the ASCII branch as "every byte ≤ 0x7F", returning
the checked ASCII text (the same bytes) or nothing. -/
def ascii_from_bytes (filebuf : List Nat) : Option (List Nat) :=
  if filebuf.all (· ≤ 0x7F) then some filebuf else none

/-- The lines `AsciiAlgo::for_each` iterates for one file: `ByteLines` on
the checked-ASCII buffer, or the `generic_utf8` fallback when the ASCII
triage fails. -/
def asciiFileLines (filebuf : List Nat) : List (List Nat) :=
  match ascii_from_bytes filebuf with
  | some ascii_str => byteLines ascii_str
  | none => generic_utf8_lines filebuf

/-- The lines `Utf8Algo::for_each` iterates for one file: always the
`generic_utf8` path. -/
def utf8FileLines (filebuf : List Nat) : List (List Nat) :=
  generic_utf8_lines filebuf

/-! ### Basic facts about `memchr2` and `skip_newline` -/

theorem memchr2_some_lt {l : List Nat} {i : Nat} (h : memchr2 l = some i) :
    i < l.length := by
  induction l generalizing i with
  | nil => simp [memchr2] at h
  | cons b rest ih =>
    simp only [memchr2] at h
    by_cases hb : isNLByte b
    · simp [hb] at h
      simp only [List.length_cons]
      omega
    · simp [hb] at h
      obtain ⟨j, hj, rfl⟩ := h
      have := ih hj
      simp only [List.length_cons]
      omega

theorem memchr2_none_iff {l : List Nat} :
    memchr2 l = none ↔ ∀ b ∈ l, isNLByte b = false := by
  induction l with
  | nil => simp [memchr2]
  | cons b rest ih =>
    simp only [memchr2]
    by_cases hb : isNLByte b
    · simp [hb]
    · simp only [Bool.not_eq_true] at hb
      simp [hb, ih]

theorem memchr2_cons_nl {c : Nat} {t : List Nat} (h : isNLByte c = true) :
    memchr2 (c :: t) = some 0 := by
  simp [memchr2, h]

theorem memchr2_append_clean {f : List Nat} {c : Nat} {t : List Nat}
    (hf : ∀ b ∈ f, isNLByte b = false) (hc : isNLByte c = true) :
    memchr2 (f ++ c :: t) = some f.length := by
  induction f with
  | nil => simpa using memchr2_cons_nl hc
  | cons a f ih =>
    have ha : isNLByte a = false := hf a (by simp)
    have := ih (fun b hb => hf b (by simp [hb]))
    simp [memchr2, ha, this]

theorem skip_newline_lt {t : List Nat} (h : t ≠ []) :
    (skip_newline t).length < t.length := by
  match t with
  | [] => exact absurd rfl h
  | [a] => simp [skip_newline]
  | a :: b :: rest =>
    simp only [skip_newline, List.length_cons]
    split
    · omega
    · simp only [List.length_cons]
      omega

theorem skip_newline_eq_drop (t : List Nat) :
    skip_newline t = t.drop 1 ∨ skip_newline t = t.drop 2 := by
  match t with
  | [] => left; rfl
  | [a] => left; rfl
  | a :: b :: rest =>
    simp only [skip_newline]
    split
    · right; rfl
    · left; rfl

theorem skip_newline_append {r rest : List Nat} (hr : r ≠ [])
    (hrest : ∀ c, rest.head? = some c → isNLByte c = false) :
    skip_newline (r ++ rest) = skip_newline r ++ rest := by
  match r with
  | [] => exact absurd rfl hr
  | [a] =>
    match rest with
    | [] => simp [skip_newline]
    | c :: t =>
      have hc : isNLByte c = false := hrest c rfl
      have hpair : isPair a c = false := by
        simp only [isNLByte, Bool.or_eq_false_iff, beq_eq_false_iff_ne] at hc
        simp only [isPair, Bool.or_eq_false_iff, Bool.and_eq_false_iff,
          beq_eq_false_iff_ne]
        constructor
        · right; exact hc.1
        · right; exact hc.2
      simp [skip_newline, hpair]
  | a :: b :: rest2 =>
    simp only [List.cons_append, skip_newline]
    split <;> simp

theorem skip_newline_length_le (t : List Nat) :
    (skip_newline t).length ≤ t.length := by
  rcases skip_newline_eq_drop t with h | h <;> simp [h]

theorem mem_skip_newline {b : Nat} {t : List Nat} (h : b ∈ skip_newline t) :
    b ∈ t := by
  rcases skip_newline_eq_drop t with he | he <;>
    exact List.mem_of_mem_drop (he ▸ h)

theorem termTake_append_skip (t : List Nat) (h : t ≠ []) :
    termTake t ++ skip_newline t = t := by
  match t with
  | [] => exact absurd rfl h
  | [a] => simp [termTake, skip_newline]
  | a :: b :: rest =>
    simp only [termTake, skip_newline]
    split <;> simp

theorem termTake_ne_nil {t : List Nat} (h : t ≠ []) : termTake t ≠ [] := by
  match t with
  | [] => exact absurd rfl h
  | [a] => simp [termTake]
  | a :: b :: rest =>
    simp only [termTake]
    split <;> simp

/-! ### Fuel sufficiency and unfolding equations -/

theorem bytelinesNext_some_lt {text l rest : List Nat}
    (h : bytelinesNext text = some (l, rest)) : rest.length < text.length := by
  simp only [bytelinesNext] at h
  split at h
  · exact absurd h (by simp)
  · rename_i hne
    have htne : text ≠ [] := by simpa using hne
    split at h
    · rename_i i hi
      have hlt := memchr2_some_lt hi
      have hd : text.drop i ≠ [] := by
        intro hcon
        have := congrArg List.length hcon
        simp at this
        omega
      have h1 := skip_newline_lt hd
      have h2 : (text.drop i).length = text.length - i := by simp
      simp only [Option.some.injEq, Prod.mk.injEq] at h
      obtain ⟨-, hr⟩ := h
      subst hr
      omega
    · simp only [Option.some.injEq, Prod.mk.injEq] at h
      obtain ⟨-, hr⟩ := h
      subst hr
      simpa using List.length_pos.mpr htne

theorem byteLinesFuel_congr :
    ∀ (f g : Nat) (text : List Nat), text.length ≤ f → text.length ≤ g →
      byteLinesFuel f text = byteLinesFuel g text := by
  intro f
  induction f with
  | zero =>
    intro g text hf _
    have : text = [] := List.length_eq_zero.mp (by omega)
    subst this
    cases g <;> simp [byteLinesFuel, bytelinesNext]
  | succ f ih =>
    intro g text hf hg
    match g with
    | 0 =>
      have : text = [] := List.length_eq_zero.mp (by omega)
      subst this
      simp [byteLinesFuel, bytelinesNext]
    | g + 1 =>
      simp only [byteLinesFuel]
      cases hnext : bytelinesNext text with
      | none => rfl
      | some pr =>
        obtain ⟨l, rest⟩ := pr
        have hlt := bytelinesNext_some_lt hnext
        show l :: byteLinesFuel f rest = l :: byteLinesFuel g rest
        rw [ih g rest (by omega) (by omega)]

theorem byteLines_unfold (text : List Nat) :
    byteLines text =
      match bytelinesNext text with
      | none => []
      | some (l, rest) => l :: byteLines rest := by
  unfold byteLines
  cases text with
  | nil => rfl
  | cons a t =>
    simp only [List.length_cons, byteLinesFuel]
    cases hnext : bytelinesNext (a :: t) with
    | none => rfl
    | some pr =>
      obtain ⟨l, rest⟩ := pr
      have hlt := bytelinesNext_some_lt hnext
      simp only [List.length_cons] at hlt
      show l :: byteLinesFuel t.length rest = l :: byteLines rest
      unfold byteLines
      rw [byteLinesFuel_congr t.length rest.length rest (by omega) (by omega)]

theorem byteLines_nil : byteLines [] = [] := rfl

theorem byteLines_of_some {text : List Nat} {i : Nat}
    (h : memchr2 text = some i) :
    byteLines text = text.take i :: byteLines (skip_newline (text.drop i)) := by
  have hne : text ≠ [] := by
    intro hcon; subst hcon; simp [memchr2] at h
  rw [byteLines_unfold]
  simp [bytelinesNext, hne, h]

theorem byteLines_of_none {text : List Nat} (h : memchr2 text = none)
    (hne : text ≠ []) : byteLines text = [text] := by
  rw [byteLines_unfold]
  simp [bytelinesNext, hne, h, byteLines_nil]

theorem bytelinesNextBack_some_lt {text l rest : List Nat}
    (h : bytelinesNextBack text = some (l, rest)) :
    rest.length < text.length := by
  simp only [bytelinesNextBack] at h
  split at h
  · exact absurd h (by simp)
  · rename_i hne
    have htne : text ≠ [] := by simpa using hne
    split at h
    · rename_i i hi
      have hd : text.take (i + 1) ≠ [] := by
        cases text with
        | nil => exact absurd rfl htne
        | cons a t => simp
      have h1 : (skip_newline_back (text.take (i + 1))).length
          < (text.take (i + 1)).length := by
        unfold skip_newline_back
        have hlen : 0 < (text.take (i + 1)).length := List.length_pos.mpr hd
        split
        · split
          · have : (text.take (i + 1)).dropLast.dropLast.length
                = (text.take (i + 1)).length - 1 - 1 := by
              simp [List.length_dropLast]
            omega
          · have : (text.take (i + 1)).dropLast.length
                = (text.take (i + 1)).length - 1 := by simp
            omega
        · have : (text.take (i + 1)).dropLast.length
              = (text.take (i + 1)).length - 1 := by simp
          omega
      have h2 : (text.take (i + 1)).length ≤ text.length := by simp
      simp only [Option.some.injEq, Prod.mk.injEq] at h
      obtain ⟨-, hr⟩ := h
      subst hr
      omega
    · simp only [Option.some.injEq, Prod.mk.injEq] at h
      obtain ⟨-, hr⟩ := h
      subst hr
      simpa using List.length_pos.mpr htne

theorem byteLinesBackFuel_congr :
    ∀ (f g : Nat) (text : List Nat), text.length ≤ f → text.length ≤ g →
      byteLinesBackFuel f text = byteLinesBackFuel g text := by
  intro f
  induction f with
  | zero =>
    intro g text hf _
    have : text = [] := List.length_eq_zero.mp (by omega)
    subst this
    cases g <;> simp [byteLinesBackFuel, bytelinesNextBack]
  | succ f ih =>
    intro g text hf hg
    match g with
    | 0 =>
      have : text = [] := List.length_eq_zero.mp (by omega)
      subst this
      simp [byteLinesBackFuel, bytelinesNextBack]
    | g + 1 =>
      simp only [byteLinesBackFuel]
      cases hnext : bytelinesNextBack text with
      | none => rfl
      | some pr =>
        obtain ⟨l, rest⟩ := pr
        have hlt := bytelinesNextBack_some_lt hnext
        show l :: byteLinesBackFuel f rest = l :: byteLinesBackFuel g rest
        rw [ih g rest (by omega) (by omega)]

theorem byteLinesBack_unfold (text : List Nat) :
    byteLinesBack text =
      match bytelinesNextBack text with
      | none => []
      | some (l, rest) => l :: byteLinesBack rest := by
  unfold byteLinesBack
  cases text with
  | nil => rfl
  | cons a t =>
    simp only [List.length_cons, byteLinesBackFuel]
    cases hnext : bytelinesNextBack (a :: t) with
    | none => rfl
    | some pr =>
      obtain ⟨l, rest⟩ := pr
      have hlt := bytelinesNextBack_some_lt hnext
      simp only [List.length_cons] at hlt
      show l :: byteLinesBackFuel t.length rest = l :: byteLinesBack rest
      unfold byteLinesBack
      rw [byteLinesBackFuel_congr t.length rest.length rest (by omega) (by omega)]

theorem byteLineSegsFuel_congr :
    ∀ (f g : Nat) (text : List Nat), text.length ≤ f → text.length ≤ g →
      byteLineSegsFuel f text = byteLineSegsFuel g text := by
  intro f
  induction f with
  | zero =>
    intro g text hf _
    have : text = [] := List.length_eq_zero.mp (by omega)
    subst this
    cases g <;> simp [byteLineSegsFuel]
  | succ f ih =>
    intro g text hf hg
    match g with
    | 0 =>
      have : text = [] := List.length_eq_zero.mp (by omega)
      subst this
      simp [byteLineSegsFuel]
    | g + 1 =>
      simp only [byteLineSegsFuel]
      by_cases hne : text.isEmpty
      · simp [hne]
      · simp only [hne, Bool.false_eq_true, if_false]
        have htne : text ≠ [] := by simpa using hne
        cases hm : memchr2 text with
        | none => rfl
        | some i =>
          have hlt := memchr2_some_lt hm
          have hd : text.drop i ≠ [] := by
            intro hcon
            have := congrArg List.length hcon
            simp at this
            omega
          have h1 := skip_newline_lt hd
          have h2 : (text.drop i).length = text.length - i := by simp
          show _ :: byteLineSegsFuel f (skip_newline (text.drop i))
              = _ :: byteLineSegsFuel g (skip_newline (text.drop i))
          rw [ih g (skip_newline (text.drop i)) (by omega) (by omega)]

theorem byteLineSegs_nil : byteLineSegs [] = [] := rfl

theorem byteLineSegs_of_some {text : List Nat} {i : Nat}
    (h : memchr2 text = some i) :
    byteLineSegs text =
      (text.take i, termTake (text.drop i)) ::
        byteLineSegs (skip_newline (text.drop i)) := by
  have hne : text ≠ [] := by
    intro hcon; subst hcon; simp [memchr2] at h
  have hlt := memchr2_some_lt h
  have hd : text.drop i ≠ [] := by
    intro hcon
    have := congrArg List.length hcon
    simp at this
    omega
  have h1 := skip_newline_lt hd
  have h2 : (text.drop i).length = text.length - i := by simp
  cases text with
  | nil => exact absurd rfl hne
  | cons a t =>
    show byteLineSegsFuel (t.length + 1) (a :: t) = _
    simp only [byteLineSegsFuel, List.isEmpty_cons, Bool.false_eq_true, if_false, h]
    show _ :: byteLineSegsFuel t.length (skip_newline ((a :: t).drop i)) = _
    unfold byteLineSegs
    rw [byteLineSegsFuel_congr t.length (skip_newline ((a :: t).drop i)).length
      (skip_newline ((a :: t).drop i)) (by simp at h1 h2 ⊢; omega) (by omega)]

theorem byteLineSegs_of_none {text : List Nat} (h : memchr2 text = none)
    (hne : text ≠ []) : byteLineSegs text = [(text, [])] := by
  cases text with
  | nil => exact absurd rfl hne
  | cons a t =>
    show byteLineSegsFuel (t.length + 1) (a :: t) = _
    simp [byteLineSegsFuel, h]

theorem tokCountFuel_congr :
    ∀ (f g : Nat) (r : List Nat), r.length ≤ f → r.length ≤ g →
      tokCountFuel f r = tokCountFuel g r := by
  intro f
  induction f with
  | zero =>
    intro g r hf _
    have : r = [] := List.length_eq_zero.mp (by omega)
    subst this
    cases g <;> simp [tokCountFuel]
  | succ f ih =>
    intro g r hf hg
    match g with
    | 0 =>
      have : r = [] := List.length_eq_zero.mp (by omega)
      subst this
      simp [tokCountFuel]
    | g + 1 =>
      simp only [tokCountFuel]
      by_cases hne : r.isEmpty
      · simp [hne]
      · simp only [hne, Bool.false_eq_true, if_false]
        have htne : r ≠ [] := by simpa using hne
        have h1 := skip_newline_lt htne
        rw [ih g (skip_newline r) (by omega) (by omega)]

theorem tokCount_nil : tokCount [] = 0 := rfl

theorem tokCount_unfold {r : List Nat} (h : r ≠ []) :
    tokCount r = tokCount (skip_newline r) + 1 := by
  have h1 := skip_newline_lt h
  cases r with
  | nil => exact absurd rfl h
  | cons a t =>
    show tokCountFuel (t.length + 1) (a :: t) = _
    simp only [tokCountFuel, List.isEmpty_cons, Bool.false_eq_true, if_false]
    unfold tokCount
    rw [tokCountFuel_congr t.length (skip_newline (a :: t)).length
      (skip_newline (a :: t)) (by simp at h1 ⊢; omega) (by omega)]

theorem tokCount_pos {r : List Nat} (h : r ≠ []) : 0 < tokCount r := by
  rw [tokCount_unfold h]
  omega

theorem tokResidualFuel_congr :
    ∀ (f g : Nat) (r : List Nat), r.length ≤ f → r.length ≤ g →
      tokResidualFuel f r = tokResidualFuel g r := by
  intro f
  induction f with
  | zero =>
    intro g r hf _
    have : r = [] := List.length_eq_zero.mp (by omega)
    subst this
    cases g <;> simp [tokResidualFuel]
  | succ f ih =>
    intro g r hf hg
    match g with
    | 0 =>
      have : r = [] := List.length_eq_zero.mp (by omega)
      subst this
      simp [tokResidualFuel]
    | g + 1 =>
      match r with
      | [] => rfl
      | [a] => rfl
      | a :: b :: t =>
        simp only [tokResidualFuel]
        simp only [List.length_cons] at hf hg
        split
        · rw [ih g t (by omega) (by omega)]
        · rw [ih g (b :: t) (by simp; omega) (by simp; omega)]

theorem tokResidual_nil : tokResidual [] = none := rfl

theorem tokResidual_single (a : Nat) : tokResidual [a] = some a := rfl

theorem tokResidual_cons2 (a b : Nat) (t : List Nat) :
    tokResidual (a :: b :: t) =
      if isPair a b then tokResidual t else tokResidual (b :: t) := by
  show tokResidualFuel (t.length + 1 + 1) (a :: b :: t) = _
  show (if isPair a b then tokResidualFuel (t.length + 1) t
        else tokResidualFuel (t.length + 1) (b :: t)) = _
  unfold tokResidual
  split
  · exact tokResidualFuel_congr (t.length + 1) t.length t (by omega) (by omega)
  · exact tokResidualFuel_congr (t.length + 1) (b :: t).length (b :: t)
      (by simp) (by simp)

theorem tokCount_cons2 (a b : Nat) (t : List Nat) :
    tokCount (a :: b :: t) =
      (if isPair a b then tokCount t else tokCount (b :: t)) + 1 := by
  rw [tokCount_unfold (by simp)]
  simp only [skip_newline]
  split <;> rfl

theorem tokCount_single (a : Nat) : tokCount [a] = 1 := rfl

theorem getLast?_drop_eq {l : List Nat} {n : Nat} (h : l.drop n ≠ []) :
    (l.drop n).getLast? = l.getLast? := by
  cases hg : (l.drop n).getLast? with
  | none =>
    rw [List.getLast?_eq_none_iff] at hg
    exact absurd hg h
  | some a =>
    conv_rhs => rw [← List.take_append_drop n l]
    rw [List.getLast?_append, hg]
    rfl

/-! ### C6: lines plus consumed terminators concatenate back to the input -/

theorem segs_concat_aux :
    ∀ (n : Nat) (B : List Nat), B.length ≤ n →
      (byteLineSegs B).foldr (fun s acc => s.1 ++ (s.2 ++ acc)) [] = B ∧
      (byteLineSegs B).map Prod.fst = byteLines B := by
  intro n
  induction n with
  | zero =>
    intro B hB
    have : B = [] := List.length_eq_zero.mp (by omega)
    subst this
    exact ⟨rfl, rfl⟩
  | succ n ih =>
    intro B hB
    cases hm : memchr2 B with
    | none =>
      cases B with
      | nil => exact ⟨rfl, rfl⟩
      | cons a t =>
        rw [byteLineSegs_of_none hm (by simp), byteLines_of_none hm (by simp)]
        constructor <;> simp
    | some i =>
      have hlt := memchr2_some_lt hm
      have hd : B.drop i ≠ [] := by
        intro hcon
        have := congrArg List.length hcon
        simp at this
        omega
      have hsl := skip_newline_lt hd
      have hdl : (B.drop i).length = B.length - i := by simp
      obtain ⟨ih1, ih2⟩ := ih (skip_newline (B.drop i)) (by omega)
      rw [byteLineSegs_of_some hm, byteLines_of_some hm]
      constructor
      · simp only [List.foldr_cons, ih1]
        rw [termTake_append_skip _ hd, List.take_append_drop]
      · simp [ih2]

/-- C6: for every input `B`, concatenating the lines yielded by `ByteLines`
interleaved with the terminator bytes it consumed restores `B` exactly (and
the line components of that decomposition are precisely the yielded
lines). -/
theorem c6_lines_terminators_concat (B : List Nat) :
    (byteLineSegs B).foldr (fun s acc => s.1 ++ (s.2 ++ acc)) [] = B ∧
    (byteLineSegs B).map Prod.fst = byteLines B :=
  segs_concat_aux B.length B le_rfl

/-! ### C3: the size hint -/

/-- C3: code bug.  The size hint is `(0, some (len / 2))` as the source
computes it, but that upper bound is not valid: the one-byte input `[97]`
(`"a"`) yields one line while the hint promises at most `⌊1/2⌋ = 0`,
violating the `Iterator::size_hint` protocol and the intent of the
source's own comment. -/
theorem c3_size_hint_upper_bound_bug :
    byteLinesSizeHint [97] = (0, some 0) ∧
    (byteLines [97]).length = 1 ∧
    ¬ ∀ hi, (byteLinesSizeHint [97]).2 = some hi →
      (byteLines [97]).length ≤ hi := by decide

/-! ### C8: terminator-at-end and pair-atomicity behaviour -/

theorem byteLineSegs_all_terminated :
    ∀ (n : Nat) (B : List Nat), B.length ≤ n →
      (∃ c, B.getLast? = some c ∧ isNLByte c = true) →
      ∀ s ∈ byteLineSegs B, s.2 ≠ [] := by
  intro n
  induction n with
  | zero =>
    intro B hB hex
    have : B = [] := List.length_eq_zero.mp (by omega)
    subst this
    simp [byteLineSegs_nil]
  | succ n ih =>
    intro B hB hex
    obtain ⟨c, hc, hcNL⟩ := hex
    have hcB : c ∈ B := List.mem_of_mem_getLast? hc
    cases hm : memchr2 B with
    | none =>
      exact absurd hcNL (by simp [memchr2_none_iff.mp hm c hcB])
    | some i =>
      have hlt := memchr2_some_lt hm
      have hd : B.drop i ≠ [] := by
        intro hcon
        have := congrArg List.length hcon
        simp at this
        omega
      rw [byteLineSegs_of_some hm]
      intro s hs
      rcases List.mem_cons.mp hs with hhead | htail
      · subst hhead
        exact termTake_ne_nil hd
      · cases hrest : skip_newline (B.drop i) with
        | nil =>
          rw [hrest] at htail
          simp [byteLineSegs_nil] at htail
        | cons x xs =>
          have hrne : skip_newline (B.drop i) ≠ [] := by simp [hrest]
          have hsuffix : (skip_newline (B.drop i)).getLast? = B.getLast? := by
            rcases skip_newline_eq_drop (B.drop i) with he | he
            · rw [he, List.drop_drop]
              exact getLast?_drop_eq (by rw [← List.drop_drop, ← he]; exact hrne)
            · rw [he, List.drop_drop]
              exact getLast?_drop_eq (by rw [← List.drop_drop, ← he]; exact hrne)
          have hsl := skip_newline_lt hd
          have hdl : (B.drop i).length = B.length - i := by simp
          exact ih (skip_newline (B.drop i)) (by omega)
            ⟨c, by rw [hsuffix]; exact hc, hcNL⟩ s htail

/-- C8: a terminator at the end of the input is consumed without a final
empty line after it (every yielded line of such an input carries a
non-empty consumed terminator, and appending one terminator to a
terminator-free slice `u` yields just `[u]`), and the two-byte sequences
`\r\n` and `\n\r` are consumed atomically, never yielding an empty line
between their two bytes. -/
theorem c8_terminator_handling (B u rest : List Nat)
    (hu : ∀ b ∈ u, isNLByte b = false) :
    ((∃ c, B.getLast? = some c ∧ isNLByte c = true) →
      ∀ s ∈ byteLineSegs B, s.2 ≠ []) ∧
    (∀ c, isNLByte c = true → byteLines (u ++ [c]) = [u]) ∧
    byteLines (u ++ [CR, NL] ++ rest) = u :: byteLines rest ∧
    byteLines (u ++ [NL, CR] ++ rest) = u :: byteLines rest := by
  refine ⟨byteLineSegs_all_terminated B.length B le_rfl, ?_, ?_, ?_⟩
  · intro c hc
    have hm := memchr2_append_clean (t := []) hu hc
    rw [byteLines_of_some hm, List.take_left, List.drop_left]
    simp [skip_newline, byteLines_nil]
  · rw [List.append_assoc]
    simp only [List.cons_append, List.nil_append]
    have hm := memchr2_append_clean (c := CR) (t := NL :: rest) hu (by decide)
    rw [byteLines_of_some hm, List.take_left, List.drop_left]
    simp [skip_newline, isPair, CR, NL]
  · rw [List.append_assoc]
    simp only [List.cons_append, List.nil_append]
    have hm := memchr2_append_clean (c := NL) (t := CR :: rest) hu (by decide)
    rw [byteLines_of_some hm, List.take_left, List.drop_left]
    simp [skip_newline, isPair, CR, NL]

/-- Witness for C8 at concrete inputs. -/
theorem c8_terminator_handling_witness :
    (∀ s ∈ byteLineSegs [97, 13, 10], s.2 ≠ []) ∧
    byteLines ([97] ++ [10]) = [[97]] ∧
    byteLines ([97] ++ [CR, NL] ++ [98]) = [97] :: byteLines [98] := by
  have h := c8_terminator_handling [97, 13, 10] [97] [98] (by decide)
  exact ⟨h.1 ⟨10, by decide, by decide⟩, h.2.1 10 (by decide), h.2.2.1⟩

/-! ### C7: backward iteration is forward iteration of the reversed input -/

theorem isPair_symm (a b : Nat) : isPair a b = isPair b a := by
  simp only [isPair]
  conv_rhs =>
    rw [Bool.or_comm, Bool.and_comm (b == NL) (a == CR),
      Bool.and_comm (b == CR) (a == NL)]

theorem skip_newline_back_eq_reverse (t : List Nat) :
    skip_newline_back t = (skip_newline t.reverse).reverse := by
  induction t using List.reverseRecOn with
  | nil => rfl
  | append_singleton u a ihu =>
    clear ihu
    induction u using List.reverseRecOn with
    | nil => simp [skip_newline_back, skip_newline]
    | append_singleton v b ihv =>
      clear ihv
      simp only [skip_newline_back, List.getLast?_concat, List.dropLast_concat]
      rw [List.reverse_append, List.reverse_append]
      simp only [List.reverse_cons, List.reverse_nil, List.nil_append,
        List.cons_append, List.singleton_append, skip_newline]
      rw [isPair_symm b a]
      split
      · simp
      · simp

theorem bytelinesNextBack_eq_reverse (text : List Nat) :
    bytelinesNextBack text =
      (bytelinesNext text.reverse).map (fun p => (p.1.reverse, p.2.reverse)) := by
  by_cases he : text = []
  · subst he; rfl
  · have htE : text.isEmpty = false := by
      cases text with
      | nil => exact absurd rfl he
      | cons a t => rfl
    have hrevE : text.reverse.isEmpty = false := by
      cases hr : text.reverse with
      | nil => exact absurd (by simpa using hr) he
      | cons a t => rfl
    cases hm : memchr2 text.reverse with
    | none =>
      have h2 : memrchr2 text = none := by
        unfold memrchr2
        rw [hm]
        rfl
      simp only [bytelinesNextBack, htE, Bool.false_eq_true, if_false, h2,
        bytelinesNext, hrevE, hm]
      simp
    | some j =>
      have hj := memchr2_some_lt hm
      rw [List.length_reverse] at hj
      have h2 : memrchr2 text = some (text.length - 1 - j) := by
        unfold memrchr2
        rw [hm]
        rfl
      simp only [bytelinesNextBack, htE, Bool.false_eq_true, if_false, h2,
        bytelinesNext, hrevE, hm]
      have h1 : text.length - 1 - j + 1 = text.length - j := by
        have hpos : 0 < text.length := List.length_pos.mpr he
        omega
      rw [h1]
      show some (text.drop (text.length - j),
            skip_newline_back (text.take (text.length - j)))
          = some ((text.reverse.take j).reverse,
              (skip_newline (text.reverse.drop j)).reverse)
      rw [List.take_reverse, List.reverse_reverse, skip_newline_back_eq_reverse,
        List.drop_reverse]

theorem byteLinesBack_eq_reverse_aux :
    ∀ (n : Nat) (text : List Nat), text.length ≤ n →
      byteLinesBack text = (byteLines text.reverse).map List.reverse := by
  intro n
  induction n with
  | zero =>
    intro text h
    have : text = [] := List.length_eq_zero.mp (by omega)
    subst this
    rfl
  | succ n ih =>
    intro text h
    rw [byteLinesBack_unfold, byteLines_unfold text.reverse,
      bytelinesNextBack_eq_reverse]
    cases hnext : bytelinesNext text.reverse with
    | none => rfl
    | some pr =>
      obtain ⟨l, rest⟩ := pr
      have hlt := bytelinesNext_some_lt hnext
      rw [List.length_reverse] at hlt
      show l.reverse :: byteLinesBack rest.reverse
          = l.reverse :: (byteLines rest).map List.reverse
      rw [ih rest.reverse (by rw [List.length_reverse]; omega)]
      rw [List.reverse_reverse]

theorem byteLinesBack_eq_reverse (text : List Nat) :
    byteLinesBack text = (byteLines text.reverse).map List.reverse :=
  byteLinesBack_eq_reverse_aux text.length text le_rfl

/-! ### Tokenisation by `skip_newline` is direction-invariant -/

theorem tokCount_append_aux :
    ∀ (n : Nat) (s : List Nat), s.length ≤ n → ∀ x,
      tokCount (s ++ [x]) =
        tokCount s + (match tokResidual s with
          | none => 1
          | some a => if isPair a x then 0 else 1) := by
  intro n
  induction n with
  | zero =>
    intro s h x
    have : s = [] := List.length_eq_zero.mp (by omega)
    subst this
    rfl
  | succ n ih =>
    intro s hs x
    match s with
    | [] => rfl
    | [a] =>
      show tokCount [a, x] = _
      rw [tokCount_cons2, tokResidual_single, tokCount_single]
      dsimp only
      by_cases hax : isPair a x <;> simp [hax, tokCount_nil, tokCount_single]
    | a :: b :: t =>
      simp only [List.length_cons] at hs
      show tokCount (a :: b :: (t ++ [x])) = _
      rw [tokCount_cons2, tokCount_cons2, tokResidual_cons2]
      by_cases hab : isPair a b
      · rw [if_pos hab, if_pos hab, if_pos hab, ih t (by omega) x]
        omega
      · have hbtx := ih (b :: t) (by simp only [List.length_cons]; omega) x
        simp only [List.cons_append] at hbtx
        rw [if_neg hab, if_neg hab, if_neg hab, hbtx]
        omega

theorem tokCount_append (s : List Nat) (x : Nat) :
    tokCount (s ++ [x]) =
      tokCount s + (match tokResidual s with
        | none => 1
        | some a => if isPair a x then 0 else 1) :=
  tokCount_append_aux s.length s le_rfl x

theorem tokResidual_append_aux :
    ∀ (n : Nat) (s : List Nat), s.length ≤ n → ∀ x,
      tokResidual (s ++ [x]) =
        (match tokResidual s with
          | none => some x
          | some a => if isPair a x then none else some x) := by
  intro n
  induction n with
  | zero =>
    intro s h x
    have : s = [] := List.length_eq_zero.mp (by omega)
    subst this
    rfl
  | succ n ih =>
    intro s hs x
    match s with
    | [] => rfl
    | [a] =>
      show tokResidual [a, x] = _
      rw [tokResidual_cons2, tokResidual_single]
      by_cases hax : isPair a x <;> simp [hax, tokResidual_nil, tokResidual_single]
    | a :: b :: t =>
      simp only [List.length_cons] at hs
      show tokResidual (a :: b :: (t ++ [x])) = _
      rw [tokResidual_cons2, tokResidual_cons2]
      by_cases hab : isPair a b
      · rw [if_pos hab, if_pos hab, ih t (by omega) x]
      · have hbtx := ih (b :: t) (by simp only [List.length_cons]; omega) x
        simp only [List.cons_append] at hbtx
        rw [if_neg hab, if_neg hab, hbtx]

theorem tokResidual_append (s : List Nat) (x : Nat) :
    tokResidual (s ++ [x]) =
      (match tokResidual s with
        | none => some x
        | some a => if isPair a x then none else some x) :=
  tokResidual_append_aux s.length s le_rfl x

theorem tokCount_reverse_aux :
    ∀ (n : Nat) (s : List Nat), s.length ≤ n →
      tokCount s.reverse = tokCount s := by
  intro n
  induction n with
  | zero =>
    intro s h
    have : s = [] := List.length_eq_zero.mp (by omega)
    subst this
    rfl
  | succ n ih =>
    intro s hs
    match s with
    | [] => rfl
    | [a] => rfl
    | a :: b :: t =>
      simp only [List.length_cons] at hs
      have iht : tokCount t.reverse = tokCount t := ih t (by omega)
      have ihbt : tokCount (b :: t).reverse = tokCount (b :: t) :=
        ih (b :: t) (by simp only [List.length_cons]; omega)
      have hrc : (a :: b :: t).reverse = (b :: t).reverse ++ [a] :=
        List.reverse_cons a (b :: t)
      have hrc2 : (b :: t).reverse = t.reverse ++ [b] := List.reverse_cons b t
      have hbt : tokCount (b :: t) =
          tokCount t + (match tokResidual t.reverse with
            | none => 1
            | some d => if isPair d b then 0 else 1) := by
        rw [← ihbt, hrc2, tokCount_append, iht]
      rw [hrc, hrc2, tokCount_append, tokCount_append, tokResidual_append,
        tokCount_cons2, iht, hbt]
      cases hR : tokResidual t.reverse with
      | none =>
        by_cases hab : isPair a b <;>
          simp [hab, isPair_symm b a]
      | some d =>
        by_cases hdb : isPair d b <;> by_cases hab : isPair a b <;>
          simp [hdb, hab, isPair_symm b a]

theorem tokCount_reverse (s : List Nat) : tokCount s.reverse = tokCount s :=
  tokCount_reverse_aux s.length s le_rfl

/-! ### Field and run decomposition of `byteLines` -/

theorem head?_dropWhile_false {p : Nat → Bool} :
    ∀ (l : List Nat) (x : Nat), (l.dropWhile p).head? = some x → p x = false := by
  intro l
  induction l with
  | nil =>
    intro x h
    simp [List.dropWhile] at h
  | cons a t ih =>
    intro x h
    by_cases hp : p a
    · rw [List.dropWhile_cons_of_pos hp] at h
      exact ih x h
    · rw [List.dropWhile_cons_of_neg hp] at h
      simp only [List.head?_cons, Option.some.injEq] at h
      subst h
      simpa using hp

/-- Split a slice that starts with a non-newline byte and contains a newline
byte into its leading field, the first maximal newline run, and the rest. -/
theorem clean_run_split (u : List Nat) (hne : u ≠ [])
    (hh : ∀ c, u.head? = some c → isNLByte c = false)
    (hnl : ∃ b ∈ u, isNLByte b = true) :
    ∃ fu ru rest2, u = fu ++ ru ++ rest2 ∧ fu ≠ [] ∧
      (∀ b ∈ fu, isNLByte b = false) ∧ ru ≠ [] ∧
      (∀ b ∈ ru, isNLByte b = true) ∧
      (∀ c, rest2.head? = some c → isNLByte c = false) ∧
      rest2.length + 1 ≤ u.length ∧
      (rest2 ≠ [] → rest2.getLast? = u.getLast?) := by
  set p1 : Nat → Bool := fun b => !isNLByte b with hp1
  set fu := u.takeWhile p1 with hfu
  set rest1 := u.dropWhile p1 with hrest1
  set ru := rest1.takeWhile isNLByte with hru
  set rest2 := rest1.dropWhile isNLByte with hrest2
  have hdec1 : fu ++ rest1 = u := List.takeWhile_append_dropWhile p1 u
  have hdec2 : ru ++ rest2 = rest1 := List.takeWhile_append_dropWhile isNLByte rest1
  have hrest1ne : rest1 ≠ [] := by
    intro hcon
    obtain ⟨b, hbmem, hbnl⟩ := hnl
    have hall : ∀ x ∈ u, p1 x := List.dropWhile_eq_nil_iff.mp hcon
    have := hall b hbmem
    rw [hp1] at this
    simp [hbnl] at this
  have hfune : fu ≠ [] := by
    obtain ⟨a, t, rfl⟩ : ∃ a t, u = a :: t := by
      cases u with
      | nil => exact absurd rfl hne
      | cons a t => exact ⟨a, t, rfl⟩
    have ha : isNLByte a = false := hh a rfl
    rw [hfu, List.takeWhile_cons_of_pos (by rw [hp1]; simp [ha])]
    simp
  have hfuc : ∀ b ∈ fu, isNLByte b = false := by
    intro b hb
    have := List.mem_takeWhile_imp hb
    rw [hp1] at this
    simpa using this
  have hrune : ru ≠ [] := by
    obtain ⟨y, ys, hy⟩ : ∃ y ys, rest1 = y :: ys := by
      cases hr1 : rest1 with
      | nil => exact absurd hr1 hrest1ne
      | cons y ys => exact ⟨y, ys, rfl⟩
    have hyNL : isNLByte y = true := by
      have := head?_dropWhile_false (p := p1) u y (by rw [← hrest1, hy]; rfl)
      rw [hp1] at this
      simpa using this
    rw [hru, hy, List.takeWhile_cons_of_pos hyNL]
    simp
  have hrua : ∀ b ∈ ru, isNLByte b = true := fun b hb =>
    List.mem_takeWhile_imp hb
  have hrest2h : ∀ c, rest2.head? = some c → isNLByte c = false := by
    intro c hc
    have := head?_dropWhile_false (p := isNLByte) rest1 c hc
    exact this
  have hulen : u.length = fu.length + ru.length + rest2.length := by
    conv_lhs => rw [← hdec1, ← hdec2]
    simp [List.length_append]
    omega
  have hrulen : 0 < ru.length := List.length_pos.mpr hrune
  refine ⟨fu, ru, rest2, ?_, hfune, hfuc, hrune, hrua, hrest2h, by omega, ?_⟩
  · rw [List.append_assoc, hdec2, hdec1]
  · intro hr2ne
    conv_rhs => rw [← hdec1, ← hdec2]
    rw [← List.append_assoc]
    rw [List.getLast?_append]
    cases hg : rest2.getLast? with
    | none => exact absurd (List.getLast?_eq_none_iff.mp hg) hr2ne
    | some a => rfl

theorem byteLines_run_aux :
    ∀ (n : Nat) (r rest : List Nat), r.length ≤ n → r ≠ [] →
      (∀ b ∈ r, isNLByte b = true) →
      (∀ c, rest.head? = some c → isNLByte c = false) →
      byteLines (r ++ rest) =
        List.replicate (tokCount r) [] ++ byteLines rest := by
  intro n
  induction n with
  | zero =>
    intro r rest h hne _ _
    exact absurd (List.length_eq_zero.mp (by omega)) hne
  | succ n ih =>
    intro r rest hlen hne hall hrest
    obtain ⟨a, t, rfl⟩ : ∃ a t, r = a :: t := by
      cases r with
      | nil => exact absurd rfl hne
      | cons a t => exact ⟨a, t, rfl⟩
    have ha : isNLByte a = true := hall a (by simp)
    have hm : memchr2 (a :: (t ++ rest)) = some 0 := memchr2_cons_nl ha
    have hAPP : skip_newline ((a :: t) ++ rest) = skip_newline (a :: t) ++ rest :=
      skip_newline_append (by simp) hrest
    simp only [List.cons_append] at hAPP
    simp only [List.cons_append]
    rw [byteLines_of_some hm, List.take_zero, List.drop_zero, hAPP,
      tokCount_unfold (show a :: t ≠ [] by simp)]
    have hsl := skip_newline_lt (show a :: t ≠ [] by simp)
    simp only [List.length_cons] at hsl hlen
    have hsall : ∀ b ∈ skip_newline (a :: t), isNLByte b = true := fun b hb =>
      hall b (mem_skip_newline hb)
    cases hsk : skip_newline (a :: t) with
    | nil =>
      simp [tokCount_nil, List.replicate_succ]
    | cons x xs =>
      rw [hsk] at hsall hsl
      have ihres := ih (x :: xs) rest (by simp only [List.length_cons] at hsl ⊢; omega)
        (by simp) hsall hrest
      simp only [List.cons_append] at ihres ⊢
      rw [ihres]
      simp [List.replicate_succ]

theorem byteLines_field_run {f r rest : List Nat}
    (hfc : ∀ b ∈ f, isNLByte b = false) (hr : r ≠ [])
    (hra : ∀ b ∈ r, isNLByte b = true)
    (hrest : ∀ c, rest.head? = some c → isNLByte c = false) :
    byteLines (f ++ r ++ rest) =
      f :: (List.replicate (tokCount r - 1) [] ++ byteLines rest) := by
  obtain ⟨c, rr, rfl⟩ : ∃ c rr, r = c :: rr := by
    cases r with
    | nil => exact absurd rfl hr
    | cons c rr => exact ⟨c, rr, rfl⟩
  have hc : isNLByte c = true := hra c (by simp)
  have hm : memchr2 (f ++ c :: (rr ++ rest)) = some f.length :=
    memchr2_append_clean hfc hc
  have hshape : f ++ (c :: rr) ++ rest = f ++ c :: (rr ++ rest) := by simp
  rw [hshape, byteLines_of_some hm, List.take_left, List.drop_left]
  have hAPP : skip_newline ((c :: rr) ++ rest) = skip_newline (c :: rr) ++ rest :=
    skip_newline_append (by simp) hrest
  simp only [List.cons_append] at hAPP
  rw [hAPP, tokCount_unfold (show c :: rr ≠ [] by simp)]
  simp only [Nat.add_sub_cancel]
  have hsall : ∀ b ∈ skip_newline (c :: rr), isNLByte b = true := fun b hb =>
    hra b (mem_skip_newline hb)
  cases hsk : skip_newline (c :: rr) with
  | nil =>
    simp [tokCount_nil]
  | cons x xs =>
    rw [hsk] at hsall
    have hrun := byteLines_run_aux (x :: xs).length (x :: xs) rest le_rfl
      (by simp) hsall hrest
    simp only [List.cons_append] at hrun ⊢
    rw [hrun]

theorem byteLines_clean {f : List Nat} (hne : f ≠ [])
    (hfc : ∀ b ∈ f, isNLByte b = false) : byteLines f = [f] :=
  byteLines_of_none (memchr2_none_iff.mpr hfc) hne

theorem byteLines_append_run_field_aux :
    ∀ (n : Nat) (u r g : List Nat), u.length ≤ n → u ≠ [] →
      (∀ c, u.head? = some c → isNLByte c = false) →
      (∀ c, u.getLast? = some c → isNLByte c = false) →
      r ≠ [] → (∀ b ∈ r, isNLByte b = true) →
      g ≠ [] → (∀ b ∈ g, isNLByte b = false) →
      byteLines (u ++ r ++ g) =
        byteLines u ++ List.replicate (tokCount r - 1) [] ++ [g] := by
  intro n
  induction n with
  | zero =>
    intro u r g h hne _ _ _ _ _ _
    exact absurd (List.length_eq_zero.mp (by omega)) hne
  | succ n ih =>
    intro u r g hlen hne hh hl hrne hra hgne hgc
    by_cases hnl : ∃ b ∈ u, isNLByte b = true
    case neg =>
      push_neg at hnl
      have hclean : ∀ b ∈ u, isNLByte b = false := fun b hb => by
        simpa using hnl b hb
      have hgh : ∀ c, g.head? = some c → isNLByte c = false := by
        intro c hc
        cases g with
        | nil => simp at hc
        | cons y ys =>
          simp only [List.head?_cons, Option.some.injEq] at hc
          subst hc
          exact hgc y (by simp)
      rw [byteLines_field_run hclean hrne hra hgh, byteLines_clean hne hclean,
        byteLines_clean hgne hgc]
      simp
    case pos =>
      obtain ⟨fu, ru, rest2, hdec, hfune, hfuc, hrune, hrua, hrest2h, hlen2,
        hlast⟩ := clean_run_split u hne hh hnl
      have hrest2ne : rest2 ≠ [] := by
        intro hcon
        subst hcon
        have hult : u.getLast? = ru.getLast? := by
          rw [hdec]
          simp only [List.append_nil]
          rw [List.getLast?_append]
          cases hgr : ru.getLast? with
          | none => exact absurd (List.getLast?_eq_none_iff.mp hgr) hrune
          | some a => rfl
        obtain ⟨a, ha⟩ : ∃ a, ru.getLast? = some a := by
          cases hgr : ru.getLast? with
          | none => exact absurd (List.getLast?_eq_none_iff.mp hgr) hrune
          | some a => exact ⟨a, rfl⟩
        have haNL : isNLByte a = true := hrua a (List.mem_of_mem_getLast? ha)
        have := hl a (by rw [hult, ha])
        simp [haNL] at this
      have hlasteq : rest2.getLast? = u.getLast? := hlast hrest2ne
      have hr2l : ∀ c, rest2.getLast? = some c → isNLByte c = false := by
        intro c hc
        exact hl c (by rw [← hlasteq]; exact hc)
      have ihres := ih rest2 r g (by omega) hrest2ne hrest2h hr2l hrne hra
        hgne hgc
      have hshape : u ++ r ++ g = fu ++ ru ++ (rest2 ++ r ++ g) := by
        rw [hdec]
        simp [List.append_assoc]
      have hresthead : ∀ c, (rest2 ++ r ++ g).head? = some c →
          isNLByte c = false := by
        intro c hc
        cases hr2 : rest2 with
        | nil => exact absurd hr2 hrest2ne
        | cons y ys =>
          rw [hr2] at hc
          simp only [List.cons_append, List.head?_cons, Option.some.injEq] at hc
          subst hc
          exact hrest2h y (by rw [hr2]; rfl)
      rw [hshape, byteLines_field_run hfuc hrune hrua hresthead, ihres]
      conv_rhs => rw [hdec, byteLines_field_run hfuc hrune hrua hrest2h]
      simp [List.append_assoc]

/-! ### C7: the forward/backward multiset comparison -/

theorem c7_perm_aux :
    ∀ (n : Nat) (B : List Nat), B.length ≤ n →
      (∀ c, B.head? = some c → isNLByte c = false) →
      (∀ c, B.getLast? = some c → isNLByte c = false) →
      (byteLines B).Perm (byteLinesBack B) := by
  intro n
  induction n with
  | zero =>
    intro B h _ _
    have : B = [] := List.length_eq_zero.mp (by omega)
    subst this
    exact List.Perm.refl _
  | succ n ih =>
    intro B hlen hh hl
    by_cases hBe : B = []
    · subst hBe
      exact List.Perm.refl _
    · by_cases hnl : ∃ b ∈ B, isNLByte b = true
      case neg =>
        push_neg at hnl
        have hclean : ∀ b ∈ B, isNLByte b = false := fun b hb => by
          simpa using hnl b hb
        have hcleanR : ∀ b ∈ B.reverse, isNLByte b = false := fun b hb =>
          hclean b (List.mem_reverse.mp hb)
        rw [byteLines_clean hBe hclean, byteLinesBack_eq_reverse,
          byteLines_clean (by simpa using hBe) hcleanR]
        simp
      case pos =>
        obtain ⟨f0, r, rest, hdec, hf0ne, hf0c, hrne, hra, hresth, hlen2,
          hlast⟩ := clean_run_split B hBe hh hnl
        have hrestne : rest ≠ [] := by
          intro hcon
          subst hcon
          have hult : B.getLast? = r.getLast? := by
            rw [hdec]
            simp only [List.append_nil]
            rw [List.getLast?_append]
            cases hgr : r.getLast? with
            | none => exact absurd (List.getLast?_eq_none_iff.mp hgr) hrne
            | some a => rfl
          obtain ⟨a, ha⟩ : ∃ a, r.getLast? = some a := by
            cases hgr : r.getLast? with
            | none => exact absurd (List.getLast?_eq_none_iff.mp hgr) hrne
            | some a => exact ⟨a, rfl⟩
          have haNL : isNLByte a = true := hra a (List.mem_of_mem_getLast? ha)
          have := hl a (by rw [hult, ha])
          simp [haNL] at this
        have hlasteq : rest.getLast? = B.getLast? := hlast hrestne
        have hrl : ∀ c, rest.getLast? = some c → isNLByte c = false := by
          intro c hc
          exact hl c (by rw [← hlasteq]; exact hc)
        have hp : (byteLines rest).Perm (byteLinesBack rest) :=
          ih rest (by omega) hresth hrl
        have hfwd : byteLines B =
            f0 :: (List.replicate (tokCount r - 1) [] ++ byteLines rest) := by
          rw [hdec]
          exact byteLines_field_run hf0c hrne hra hresth
        have hrevshape : B.reverse = rest.reverse ++ r.reverse ++ f0.reverse := by
          rw [hdec]
          simp [List.reverse_append, List.append_assoc]
        have hbwd : byteLinesBack B =
            byteLinesBack rest ++ List.replicate (tokCount r - 1) [] ++ [f0] := by
          rw [byteLinesBack_eq_reverse, hrevshape]
          rw [byteLines_append_run_field_aux rest.reverse.length rest.reverse
            r.reverse f0.reverse le_rfl
            (by simpa using hrestne)
            (by intro c hc; rw [List.head?_reverse] at hc; exact hrl c hc)
            (by intro c hc; rw [List.getLast?_reverse] at hc; exact hresth c hc)
            (by simpa using hrne)
            (by intro b hb; exact hra b (List.mem_reverse.mp hb))
            (by simpa using hf0ne)
            (by intro b hb; exact hf0c b (List.mem_reverse.mp hb))]
          rw [tokCount_reverse]
          simp [byteLinesBack_eq_reverse, List.map_append, List.map_replicate]
        rw [hfwd, hbwd]
        have h1 : (f0 :: (List.replicate (tokCount r - 1) [] ++ byteLines rest)).Perm
            ((List.replicate (tokCount r - 1) [] ++ byteLines rest) ++ [f0]) :=
          (List.perm_append_singleton f0 _).symm
        have h2 : ((List.replicate (tokCount r - 1) [] ++ byteLines rest) ++ [f0]).Perm
            ((byteLinesBack rest ++ List.replicate (tokCount r - 1) []) ++ [f0]) :=
          (List.perm_append_comm.trans (hp.append_right _)).append_right [f0]
        exact h1.trans h2

/-- C7: corrected.  A leading terminator yields an initial empty line only
under forward iteration: on `[10, 97]` (the text `\na`) forward iteration
yields two lines and backward iteration only one, so the two multisets of
line slices differ. -/
theorem c7_leading_terminator_counterexample :
    byteLines [10, 97] = [[], [97]] ∧
    byteLinesBack [10, 97] = [[97]] ∧
    ¬ (byteLines [10, 97]).Perm (byteLinesBack [10, 97]) := by
  refine ⟨by decide, by decide, ?_⟩
  intro hperm
  have hlen := hperm.length_eq
  have h1 : byteLines [10, 97] = [[], [97]] := by decide
  have h2 : byteLinesBack [10, 97] = [[97]] := by decide
  rw [h1, h2] at hlen
  simp at hlen

/-- C7 (amended): whenever the input neither starts nor ends with a
terminator byte, consuming `ByteLines` front-to-back and back-to-front
yields the same multiset of line slices; inputs with a terminator at
exactly one end may differ by one empty line. -/
theorem c7_forward_backward_perm (B : List Nat)
    (hh : ∀ c, B.head? = some c → isNLByte c = false)
    (hl : ∀ c, B.getLast? = some c → isNLByte c = false) :
    (byteLines B).Perm (byteLinesBack B) :=
  c7_perm_aux B.length B le_rfl hh hl

/-- Witness for C7 at a concrete input. -/
theorem c7_forward_backward_perm_witness :
    (byteLines [97, 10, 13, 10, 98]).Perm (byteLinesBack [97, 10, 13, 10, 98]) :=
  c7_forward_backward_perm [97, 10, 13, 10, 98] (by decide) (by decide)

/-! ### C1: the entry-point guard -/

/-- C1: corrected.  With an empty needle the entry points return
`Default::default()`, which for the `Option` return type is `None` — not
`Some((vec![], 0))` as the claim states. -/
theorem c1_empty_needle_counterexample :
    with_fzy_algo (α := Nat) [] 1024 (some [47]) (fun _ => ([], 0)) = none ∧
    default_searcher (α := Nat) [] (some [47]) (fun _ => ([], 0)) = none ∧
    (none : Option (List Nat × Nat)) ≠ some ([], 0) := by
  refine ⟨rfl, rfl, by decide⟩

/-- C1 (amended): for every needle that is empty or whose byte length
exceeds `max_line_len`, `with_fzy_algo` returns `None` (no result) without
running the search pipeline — the result does not depend on the pipeline at
all — and `default_searcher` does the same for the empty needle. -/
theorem c1_entry_guard_returns_none {α : Type} (needle : List Nat)
    (max_line_len : Nat) (root : Option (List Nat))
    (pipeline pipeline2 : Unit → List α × Nat)
    (h : needle = [] ∨ max_line_len < needle.length) :
    with_fzy_algo needle max_line_len root pipeline = none ∧
    with_fzy_algo needle max_line_len root pipeline =
      with_fzy_algo needle max_line_len root pipeline2 ∧
    (needle = [] → default_searcher needle root pipeline = none) := by
  have hcond : (needle.isEmpty || decide (max_line_len < needle.length)) = true := by
    rcases h with h | h
    · subst h
      rfl
    · simp [h]
  refine ⟨?_, ?_, ?_⟩
  · simp only [with_fzy_algo, hcond, if_true]
  · simp only [with_fzy_algo, hcond, if_true]
  · intro hEmpty
    subst hEmpty
    rfl

/-- Witness for C1 at a concrete overlong needle. -/
theorem c1_entry_guard_returns_none_witness :
    with_fzy_algo (α := Nat) [97] 0 (some [47]) (fun _ => ([5], 1)) = none ∧
    with_fzy_algo (α := Nat) [97] 0 (some [47]) (fun _ => ([5], 1)) =
      with_fzy_algo (α := Nat) [97] 0 (some [47]) (fun _ => ([7], 2)) ∧
    (([97] : List Nat) = [] →
      default_searcher (α := Nat) [97] (some [47]) (fun _ => ([5], 1)) = none) :=
  c1_entry_guard_returns_none [97] 0 (some [47]) _ _ (Or.inr (by decide))

/-! ### C2: bonus_threads = 255 -/

/-- C2: code bug.  `setter` computes `threadcount = bonus_threads + 1` in
`u8` arithmetic, so `bonus_threads = 255` overflows: the addition panics
under debug assertions, and in release mode wraps to `0`, leaving zero
shard vectors so that the first walked file indexes `files_chunks[1]` out
of bounds and panics (modelled as `none`) — contradicting the field's own
documentation that large values merely degrade performance. -/
theorem c2_bonus_threads_255_overflow_bug :
    u8_wrapping_add 255 1 = 0 ∧
    setterShards (α := Nat) 255 [7] = none := by decide

/-! ### C4: one worker per shard -/

theorem rrLoop_some {α : Type} :
    ∀ (paths : List α) (chunks : List (List α)) (idx tc : Nat),
      0 < tc → chunks.length = tc → idx < tc →
      ∃ st2, rrLoop tc (chunks, idx) paths = some st2 ∧ st2.1.length = tc := by
  intro paths
  induction paths with
  | nil =>
    intro chunks idx tc h1 h2 h3
    exact ⟨(chunks, idx), rfl, h2⟩
  | cons p ps ih =>
    intro chunks idx tc h1 h2 h3
    have hi1 : (if idx + 1 == tc then 0 else idx + 1) < tc := by
      by_cases he : idx + 1 = tc
      · simpa [he] using h1
      · have hne : (idx + 1 == tc) = false := by simpa using he
        rw [hne]
        simp only [Bool.false_eq_true, if_false]
        omega
    have hi1lt : (if idx + 1 == tc then 0 else idx + 1) < chunks.length := by
      rw [h2]
      exact hi1
    have hpush : pushAt chunks (if idx + 1 == tc then 0 else idx + 1) p =
        some (chunks.set (if idx + 1 == tc then 0 else idx + 1)
          (chunks[(if idx + 1 == tc then 0 else idx + 1)] ++ [p])) := by
      unfold pushAt
      rw [dif_pos hi1lt]
    obtain ⟨st2, hst2, hlen2⟩ := ih
      (chunks.set (if idx + 1 == tc then 0 else idx + 1)
        (chunks[(if idx + 1 == tc then 0 else idx + 1)] ++ [p]))
      (if idx + 1 == tc then 0 else idx + 1) tc h1 (by simpa using h2) hi1
    refine ⟨st2, ?_, hlen2⟩
    show (match pushAt chunks (if idx + 1 == tc then 0 else idx + 1) p with
      | some chunks2 =>
        rrLoop tc (chunks2, if idx + 1 == tc then 0 else idx + 1) ps
      | none => none) = some st2
    rw [hpush]
    exact hst2

theorem setterShards_length {α : Type} (bt : Nat) (paths : List α)
    (h : bt ≤ 254) :
    ∃ cs, setterShards (α := α) bt paths = some cs ∧ cs.length = bt + 1 := by
  have htc : u8_wrapping_add bt 1 = bt + 1 := by
    unfold u8_wrapping_add
    omega
  obtain ⟨st2, hst2, hlen⟩ := rrLoop_some paths
    (List.replicate (bt + 1) ([] : List α)) 0 (bt + 1) (by omega) (by simp)
    (by omega)
  refine ⟨st2.1, ?_, hlen⟩
  show Option.map Prod.fst (rrLoop (u8_wrapping_add bt 1)
    (List.replicate (u8_wrapping_add bt 1) ([] : List α), 0) paths) = some st2.1
  rw [htc, hst2]
  rfl

theorem foldl_push_length {α : Type} :
    ∀ (chunks acc : List (List α)),
      (chunks.foldl (fun threads files => threads ++ [files]) acc).length =
        acc.length + chunks.length := by
  intro chunks
  induction chunks with
  | nil =>
    intro acc
    simp
  | cons c cs ih =>
    intro acc
    simp only [List.foldl_cons]
    rw [ih]
    simp only [List.length_append, List.length_cons, List.length_nil]
    omega

theorem spawnerThreads_length {α : Type} (chunks : List (List α)) :
    (spawnerThreads chunks).length = chunks.length := by
  unfold spawnerThreads
  simpa using foldl_push_length chunks []

/-- C4: corrected.  `spawner` spawns a thread for the empty shard too; on
the shard list `[[], [5]]` it launches two workers while only one shard is
non-empty. -/
theorem c4_empty_shard_counterexample :
    (spawnerThreads (α := Nat) [[], [5]]).length = 2 ∧
    ([[], [5]] : List (List Nat)).countP (fun s => !s.isEmpty) = 1 ∧
    (spawnerThreads (α := Nat) [[], [5]]).length ≠
      ([[], [5]] : List (List Nat)).countP (fun s => !s.isEmpty) := by decide

/-- C4 (amended): `spawner` launches exactly one worker per shard, empty or
not; consequently, through `setter` with `bonus_threads ≤ 254` the number
of launched workers is always `bonus_threads + 1`, independent of how many
shards received a path. -/
theorem c4_worker_per_shard {α : Type} (chunks : List (List α)) (bt : Nat)
    (paths : List α) (h : bt ≤ 254) :
    (spawnerThreads chunks).length = chunks.length ∧
    ∃ cs, setterShards (α := α) bt paths = some cs ∧
      (spawnerThreads cs).length = bt + 1 := by
  refine ⟨spawnerThreads_length chunks, ?_⟩
  obtain ⟨cs, hcs, hlen⟩ := setterShards_length bt paths h
  exact ⟨cs, hcs, by rw [spawnerThreads_length]; exact hlen⟩

/-- Witness for C4 at concrete inputs. -/
theorem c4_worker_per_shard_witness :
    (spawnerThreads (α := Nat) [[1], []]).length = 2 ∧
    ∃ cs, setterShards (α := Nat) 2 [7] = some cs ∧
      (spawnerThreads cs).length = 3 :=
  c4_worker_per_shard (α := Nat) [[1], []] 2 [7] (by decide)

/-! ### C5: the display-path stripping of apply -/

/-- C5: corrected.  On path `xyz/f` with root `abc` the root is not a
prefix of the path, yet `apply` still slices off `root.len()` bytes and the
following separator, producing `f` instead of the full path the claim
requires. -/
theorem c5_not_prefix_counterexample :
    path_without_root [120, 121, 122, 47, 102] [97, 98, 99] = [102] ∧
    ([120, 121, 122, 47, 102] : List Nat).take 3 ≠ [97, 98, 99] ∧
    path_without_root [120, 121, 122, 47, 102] [97, 98, 99] ≠
      [120, 121, 122, 47, 102] := by decide

/-- C5 (amended): the display path drops the first `root.len()` bytes of
the path whenever that index is a char boundary — whether or not the path
actually begins with the root — and then strips one immediately following
platform separator; when the index is not a char boundary the full path is
used; the computation is total.  In particular a path of the shape
`root ++ separator ++ rest` is displayed as `rest`. -/
theorem c5_path_strip_characterization (path root rest : List Nat) :
    path_without_root (root ++ MAIN_SEPARATOR :: rest) root = rest ∧
    (isCharBoundary path root.length = false →
      path_without_root path root = path) ∧
    (isCharBoundary path root.length = true →
      path_without_root path root =
        if (path.drop root.length).head? = some MAIN_SEPARATOR then
          (path.drop root.length).tail
        else path.drop root.length) := by
  refine ⟨?_, ?_, ?_⟩
  · have hb : isCharBoundary (root ++ MAIN_SEPARATOR :: rest) root.length
        = true := by
      unfold isCharBoundary
      rw [List.getElem?_append_right (le_refl root.length)]
      simp [MAIN_SEPARATOR, isContByte]
    simp only [path_without_root, strGetFrom, hb, if_true, List.drop_left]
    simp [MAIN_SEPARATOR]
  · intro h
    simp [path_without_root, strGetFrom, h]
  · intro h
    simp only [path_without_root, strGetFrom, h, if_true]
    cases hd : path.drop root.length with
    | nil => simp
    | cons b bs =>
      simp only [List.head?_cons]
      by_cases hb47 : b = MAIN_SEPARATOR
      · subst hb47
        simp
      · have hbeq : (b == MAIN_SEPARATOR) = false := by simpa using hb47
        simp [hbeq, hb47]

/-- Witness for C5 at concrete inputs, including a non-boundary slice. -/
theorem c5_path_strip_characterization_witness :
    path_without_root ([97, 98] ++ MAIN_SEPARATOR :: [99]) [97, 98] = [99] ∧
    path_without_root [196, 169] [97] = [196, 169] ∧
    path_without_root [120, 121, 47, 102] [97, 98] =
      (if (([120, 121, 47, 102] : List Nat).drop 2).head?
          = some MAIN_SEPARATOR then
        (([120, 121, 47, 102] : List Nat).drop 2).tail
      else ([120, 121, 47, 102] : List Nat).drop 2) := by
  have h1 := c5_path_strip_characterization [120, 121, 47, 102] [97, 98] [99]
  have h2 := c5_path_strip_characterization [196, 169] [97] []
  exact ⟨h1.1, h2.2.1 (by decide), h1.2.2 (by decide)⟩

/-! ### C9: the aggregator invariant -/

theorem aggregate_len_le_cap_aux {α : Type} (cap : Nat)
    (sf : List α → List α) :
    ∀ (batches : List (List α)) (st : List α × Nat), st.1.length ≤ cap →
      ((batches.foldl (aggStep cap sf) st).1.length ≤ cap) := by
  intro batches
  induction batches with
  | nil =>
    intro st h
    exact h
  | cons b bs ih =>
    intro st h
    simp only [List.foldl_cons]
    apply ih
    unfold aggStep
    split
    · exact h
    · exact List.length_take_le cap (sf (st.1 ++ b))

theorem aggregate_total_aux {α : Type} (cap : Nat) (sf : List α → List α)
    (hsf : ∀ l, (sf l).length = l.length) :
    ∀ (batches : List (List α)) (st : List α × Nat),
      st.1.length ≤ st.2 →
      st.2 + (batches.map List.length).sum < USIZE_MOD →
      (batches.foldl (aggStep cap sf) st).1.length ≤
        (batches.foldl (aggStep cap sf) st).2 := by
  intro batches
  induction batches with
  | nil =>
    intro st h1 _
    exact h1
  | cons b bs ih =>
    intro st h1 h2
    simp only [List.map_cons, List.sum_cons] at h2
    simp only [List.foldl_cons]
    by_cases hbe : b.isEmpty = true
    · simp only [aggStep, hbe, if_true]
      exact ih st h1 (by omega)
    · have hbef : b.isEmpty = false := by simpa using hbe
      simp only [aggStep, hbef, Bool.false_eq_true, if_false]
      have hMOD : 0 < USIZE_MOD := by
        unfold USIZE_MOD
        positivity
      have hw : usize_wrapping_add st.2 b.length = st.2 + b.length := by
        unfold usize_wrapping_add
        have hlt : st.2 + b.length < USIZE_MOD := by omega
        exact Nat.mod_eq_of_lt hlt
      rw [hw]
      apply ih
      · calc ((sf (st.1 ++ b)).take cap).length
            ≤ (sf (st.1 ++ b)).length := by
              rw [List.length_take]
              exact Nat.min_le_right _ _
          _ = st.1.length + b.length := by rw [hsf]; simp
          _ ≤ st.2 + b.length := by omega
      · omega

/-- C9: in the aggregator loop, for batches each of length at most
`results_cap`, the buffer length is at most `results_cap` before every
receive (after any prefix of the batch sequence) and after every
merge-sort-truncate, the returned vector obeys the same bound, and — as
long as the total has not wrapped — the returned total is at least the
returned vector's length.  The sort hook operates on a mutable slice and
therefore preserves length. -/
theorem c9_aggregator_invariant {α : Type} (cap : Nat)
    (sf : List α → List α) (batches : List (List α)) (n : Nat)
    (hsf : ∀ l, (sf l).length = l.length)
    (_hb : ∀ b ∈ batches, b.length ≤ cap)
    (hnw : (batches.map List.length).sum < USIZE_MOD) :
    ((batches.take n).foldl (aggStep cap sf) ([], 0)).1.length ≤ cap ∧
    (aggregate cap sf batches).1.length ≤ cap ∧
    (aggregate cap sf batches).1.length ≤ (aggregate cap sf batches).2 :=
  ⟨aggregate_len_le_cap_aux cap sf _ _ (by simp),
    aggregate_len_le_cap_aux cap sf _ _ (by simp),
    aggregate_total_aux cap sf hsf batches ([], 0) (by simp)
      (by simpa using hnw)⟩

/-- Witness for C9 at a concrete run. -/
theorem c9_aggregator_invariant_witness :
    ((([[1], [2]] : List (List Nat)).take 1).foldl (aggStep 1 id) ([], 0)).1.length ≤ 1 ∧
    (aggregate 1 id [[1], [2]]).1.length ≤ 1 ∧
    (aggregate 1 id [[1], [2]]).1.length ≤ (aggregate 1 id [[1], [2]]).2 :=
  c9_aggregator_invariant 1 id [[1], [2]] 1 (fun _ => rfl) (by decide)
    (by decide)

/-! ### C10: the UTF-8 fallback path -/

theorem validCharB_ne_nil {c : List Nat} (h : validCharB c = true) :
    c ≠ [] := by
  intro hcon
  subst hcon
  simp [validCharB] at h

theorem validCharB_seqLen {c : List Nat} (h : validCharB c = true) :
    ∀ b0 r, c = b0 :: r → utf8SeqLen b0 = c.length := by
  intro b0 r hc
  subst hc
  cases r with
  | nil =>
    simp only [validCharB, decide_eq_true_eq] at h
    simp [utf8SeqLen, h]
  | cons b1 r1 =>
    cases r1 with
    | nil =>
      simp only [validCharB, Bool.and_eq_true, decide_eq_true_eq] at h
      obtain ⟨⟨ha1, ha2⟩, -⟩ := h
      simp only [utf8SeqLen, List.length_cons, List.length_nil]
      rw [if_neg (by omega), if_pos ⟨ha1, ha2⟩]
    | cons b2 r2 =>
      cases r2 with
      | nil =>
        simp only [validCharB, Bool.and_eq_true, decide_eq_true_eq] at h
        obtain ⟨⟨⟨ha1, ha2⟩, -⟩, -⟩ := h
        simp only [utf8SeqLen, List.length_cons, List.length_nil]
        rw [if_neg (by omega), if_neg (by omega), if_pos ⟨ha1, ha2⟩]
      | cons b3 r3 =>
        cases r3 with
        | nil =>
          simp only [validCharB, Bool.and_eq_true, decide_eq_true_eq] at h
          obtain ⟨⟨⟨⟨ha1, ha2⟩, -⟩, -⟩, -⟩ := h
          simp only [utf8SeqLen, List.length_cons, List.length_nil]
          rw [if_neg (by omega), if_neg (by omega), if_neg (by omega),
            if_pos ⟨ha1, ha2⟩]
        | cons b4 r4 =>
          simp [validCharB] at h

theorem utf8CharLen_some {l : List Nat} {k : Nat}
    (h : utf8CharLen l = some k) :
    1 ≤ k ∧ k ≤ l.length ∧ validCharB (l.take k) = true := by
  cases l with
  | nil => exact absurd h (by simp [utf8CharLen])
  | cons b0 rest =>
    rw [utf8CharLen] at h
    split_ifs at h with hc
    · obtain ⟨h1, h2, h3⟩ := hc
      simp only [Option.some.injEq] at h
      subst h
      exact ⟨by omega, h2, h3⟩

theorem utf8CharLen_of_validChar {c : List Nat} (h : validCharB c = true)
    (r : List Nat) : utf8CharLen (c ++ r) = some c.length := by
  obtain ⟨b0, c1, rfl⟩ : ∃ b0 c1, c = b0 :: c1 := by
    cases c with
    | nil => exact absurd rfl (validCharB_ne_nil h)
    | cons b0 c1 => exact ⟨b0, c1, rfl⟩
  have hseq : utf8SeqLen b0 = (b0 :: c1).length :=
    validCharB_seqLen h b0 c1 rfl
  show utf8CharLen (b0 :: (c1 ++ r)) = _
  rw [utf8CharLen]
  rw [if_pos ?hcond]
  case hcond =>
    refine ⟨by rw [hseq]; simp, by rw [hseq]; simp, ?_⟩
    rw [hseq]
    show validCharB ((b0 :: c1 ++ r).take (c1.length + 1)) = true
    have htk : (b0 :: c1 ++ r).take (c1.length + 1) = b0 :: c1 := by
      show (b0 :: (c1 ++ r)).take (c1.length + 1) = b0 :: c1
      rw [List.take_succ_cons, List.take_left]
    rw [htk]
    exact h
  rw [hseq]

theorem utf8ValidUpToFuel_congr :
    ∀ (f g : Nat) (l : List Nat), l.length ≤ f → l.length ≤ g →
      utf8ValidUpToFuel f l = utf8ValidUpToFuel g l := by
  intro f
  induction f with
  | zero =>
    intro g l hf _
    have : l = [] := List.length_eq_zero.mp (by omega)
    subst this
    cases g <;> simp [utf8ValidUpToFuel, utf8CharLen]
  | succ f ih =>
    intro g l hf hg
    match g with
    | 0 =>
      have : l = [] := List.length_eq_zero.mp (by omega)
      subst this
      simp [utf8ValidUpToFuel, utf8CharLen]
    | g + 1 =>
      simp only [utf8ValidUpToFuel]
      cases hc : utf8CharLen l with
      | none => rfl
      | some k =>
        obtain ⟨hk1, hk2, -⟩ := utf8CharLen_some hc
        have hdl : (l.drop k).length = l.length - k := by simp
        show k + utf8ValidUpToFuel f (l.drop k)
            = k + utf8ValidUpToFuel g (l.drop k)
        rw [ih g (l.drop k) (by omega) (by omega)]

theorem utf8ValidUpTo_unfold (l : List Nat) :
    utf8ValidUpTo l =
      match utf8CharLen l with
      | some k => k + utf8ValidUpTo (l.drop k)
      | none => 0 := by
  unfold utf8ValidUpTo
  cases l with
  | nil => simp [utf8ValidUpToFuel, utf8CharLen]
  | cons b0 t =>
    simp only [List.length_cons, utf8ValidUpToFuel]
    cases hc : utf8CharLen (b0 :: t) with
    | none => rfl
    | some k =>
      obtain ⟨hk1, hk2, -⟩ := utf8CharLen_some hc
      simp only [List.length_cons] at hk2
      have hdl : ((b0 :: t).drop k).length = t.length + 1 - k := by simp
      show k + utf8ValidUpToFuel t.length ((b0 :: t).drop k)
          = k + utf8ValidUpToFuel ((b0 :: t).drop k).length ((b0 :: t).drop k)
      rw [utf8ValidUpToFuel_congr t.length ((b0 :: t).drop k).length
        ((b0 :: t).drop k) (by omega) (by omega)]

theorem utf8ValidUpTo_valid_aux :
    ∀ (n : Nat) (l : List Nat), l.length ≤ n →
      ValidUtf8 (l.take (utf8ValidUpTo l)) := by
  intro n
  induction n with
  | zero =>
    intro l h
    have : l = [] := List.length_eq_zero.mp (by omega)
    subst this
    exact ValidUtf8.nil
  | succ n ih =>
    intro l hl
    rw [utf8ValidUpTo_unfold]
    cases hc : utf8CharLen l with
    | none => exact ValidUtf8.nil
    | some k =>
      obtain ⟨hk1, hk2, hval⟩ := utf8CharLen_some hc
      show ValidUtf8 (l.take (k + utf8ValidUpTo (l.drop k)))
      rw [List.take_add]
      refine ValidUtf8.cons (l.take k) ((l.drop k).take (utf8ValidUpTo (l.drop k)))
        hval ?_
      have hdl : (l.drop k).length = l.length - k := by simp
      exact ih (l.drop k) (by omega)

theorem utf8ValidUpTo_valid (l : List Nat) :
    ValidUtf8 (l.take (utf8ValidUpTo l)) :=
  utf8ValidUpTo_valid_aux l.length l le_rfl

theorem utf8ValidUpTo_maximal_aux :
    ∀ (n : Nat) (l : List Nat) (m : Nat), m ≤ n → m ≤ l.length →
      ValidUtf8 (l.take m) → m ≤ utf8ValidUpTo l := by
  intro n
  induction n with
  | zero =>
    intro l m h1 _ _
    omega
  | succ n ih =>
    intro l m hm hml hv
    generalize htk : l.take m = v at hv
    cases hv with
    | nil =>
      have hlen := congrArg List.length htk
      simp only [List.length_take, List.length_nil] at hlen
      omega
    | cons c rest hc hrest =>
      have hcne : 0 < c.length := List.length_pos.mpr (validCharB_ne_nil hc)
      have hlen := congrArg List.length htk
      simp only [List.length_take, List.length_append] at hlen
      have hmeq : m = c.length + rest.length := by omega
      have hl : l = c ++ (rest ++ l.drop m) := by
        conv_lhs => rw [← List.take_append_drop m l]
        rw [htk, List.append_assoc]
      have hchar : utf8CharLen l = some c.length := by
        conv_lhs => rw [hl]
        exact utf8CharLen_of_validChar hc _
      rw [utf8ValidUpTo_unfold, hchar]
      show m ≤ c.length + utf8ValidUpTo (l.drop c.length)
      have hdrop : l.drop c.length = rest ++ l.drop m := by
        conv_lhs => rw [hl]
        exact List.drop_left c (rest ++ l.drop m)
      have htake : (l.drop c.length).take (m - c.length) = rest := by
        rw [hdrop]
        have hre : m - c.length = rest.length := by omega
        rw [hre, List.take_left]
      have hrec : m - c.length ≤ utf8ValidUpTo (l.drop c.length) := by
        refine ih (l.drop c.length) (m - c.length) (by omega) ?_ ?_
        · have : (l.drop c.length).length = l.length - c.length := by simp
          omega
        · rw [htake]
          exact hrest
      omega

/-! `str::lines` pieces -/

theorem memchrNL_some_lt {l : List Nat} {i : Nat} (h : memchrNL l = some i) :
    i < l.length := by
  induction l generalizing i with
  | nil => simp [memchrNL] at h
  | cons b rest ih =>
    simp only [memchrNL] at h
    by_cases hb : b = 10
    · simp [hb] at h
      simp only [List.length_cons]
      omega
    · have hbeq : (b == 10) = false := by simpa using hb
      simp [hbeq] at h
      obtain ⟨j, hj, rfl⟩ := h
      have := ih hj
      simp only [List.length_cons]
      omega

theorem memchrNL_none_iff {l : List Nat} :
    memchrNL l = none ↔ (10 : Nat) ∉ l := by
  induction l with
  | nil => simp [memchrNL]
  | cons b rest ih =>
    simp only [memchrNL]
    by_cases hb : b = 10
    · subst hb
      simp
    · have hbeq : (b == 10) = false := by simpa using hb
      simp [hbeq, ih, hb]
      tauto

theorem memchrNL_append_clean {u v : List Nat} (hu : (10 : Nat) ∉ u) :
    memchrNL (u ++ 10 :: v) = some u.length := by
  induction u with
  | nil => simp [memchrNL]
  | cons a u ih =>
    have ha : a ≠ 10 := by
      intro hcon
      exact hu (by simp [hcon])
    have haeq : (a == 10) = false := by simpa using ha
    have := ih (fun hmem => hu (by simp [hmem]))
    simp [memchrNL, haeq, this]

theorem splitIncNLFuel_congr :
    ∀ (f g : Nat) (s : List Nat), s.length ≤ f → s.length ≤ g →
      splitIncNLFuel f s = splitIncNLFuel g s := by
  intro f
  induction f with
  | zero =>
    intro g s hf _
    have : s = [] := List.length_eq_zero.mp (by omega)
    subst this
    cases g <;> simp [splitIncNLFuel]
  | succ f ih =>
    intro g s hf hg
    match g with
    | 0 =>
      have : s = [] := List.length_eq_zero.mp (by omega)
      subst this
      simp [splitIncNLFuel]
    | g + 1 =>
      simp only [splitIncNLFuel]
      by_cases he : s.isEmpty
      · simp [he]
      · simp only [he, Bool.false_eq_true, if_false]
        cases hc : memchrNL s with
        | none => rfl
        | some i =>
          have hlt := memchrNL_some_lt hc
          have hdl : (s.drop (i + 1)).length = s.length - (i + 1) := by simp
          show s.take (i + 1) :: splitIncNLFuel f (s.drop (i + 1))
              = s.take (i + 1) :: splitIncNLFuel g (s.drop (i + 1))
          rw [ih g (s.drop (i + 1)) (by omega) (by omega)]

theorem splitIncNL_of_some {s : List Nat} {i : Nat} (h : memchrNL s = some i) :
    splitIncNL s = s.take (i + 1) :: splitIncNL (s.drop (i + 1)) := by
  have hne : s ≠ [] := by
    intro hcon
    subst hcon
    simp [memchrNL] at h
  have hlt := memchrNL_some_lt h
  cases s with
  | nil => exact absurd rfl hne
  | cons a t =>
    show splitIncNLFuel (t.length + 1) (a :: t) = _
    simp only [splitIncNLFuel, List.isEmpty_cons, Bool.false_eq_true, if_false, h]
    simp only [List.length_cons] at hlt
    have hdl : ((a :: t).drop (i + 1)).length = t.length + 1 - (i + 1) := by simp
    show _ :: splitIncNLFuel t.length ((a :: t).drop (i + 1)) = _
    unfold splitIncNL
    rw [splitIncNLFuel_congr t.length ((a :: t).drop (i + 1)).length
      ((a :: t).drop (i + 1)) (by omega) (by omega)]

theorem splitIncNL_of_none {s : List Nat} (h : memchrNL s = none)
    (hne : s ≠ []) : splitIncNL s = [s] := by
  cases s with
  | nil => exact absurd rfl hne
  | cons a t =>
    show splitIncNLFuel (t.length + 1) (a :: t) = _
    simp [splitIncNLFuel, h]

theorem splitIncNL_append {u v : List Nat} (hu : (10 : Nat) ∉ u) :
    splitIncNL (u ++ 10 :: v) = (u ++ [10]) :: splitIncNL v := by
  have hm : memchrNL (u ++ 10 :: v) = some u.length := memchrNL_append_clean hu
  rw [splitIncNL_of_some hm]
  have htk : (u ++ 10 :: v).take (u.length + 1) = u ++ [10] := by
    rw [List.take_append 1]
    rfl
  have hdr : (u ++ 10 :: v).drop (u.length + 1) = v := by
    rw [List.drop_append 1]
    rfl
  rw [htk, hdr]

theorem splitIncNL_no_nl {w : List Nat} (hne : w ≠ [])
    (hw : (10 : Nat) ∉ w) : splitIncNL w = [w] :=
  splitIncNL_of_none (memchrNL_none_iff.mpr hw) hne

theorem lineMapPiece_crlf (u : List Nat) :
    lineMapPiece (u ++ [13, 10]) = u := by
  unfold lineMapPiece
  have hshape : u ++ [13, 10] = (u ++ [13]) ++ [10] := by simp
  rw [hshape, List.getLast?_concat, List.dropLast_concat]
  simp only [beq_self_eq_true, if_true]
  rw [List.getLast?_concat, List.dropLast_concat]
  simp

theorem lineMapPiece_not_nl {w : List Nat} (h : w.getLast? ≠ some 10) :
    lineMapPiece w = w := by
  unfold lineMapPiece
  have hbeq : (w.getLast? == some 10) = false := by simpa using h
  rw [hbeq]
  simp

theorem rustLines_crlf {u v : List Nat} (hu : (10 : Nat) ∉ u) :
    rustLines (u ++ 13 :: 10 :: v) = u :: rustLines v := by
  have hshape : u ++ 13 :: 10 :: v = (u ++ [13]) ++ 10 :: v := by simp
  have hu13 : (10 : Nat) ∉ u ++ [13] := by
    intro hmem
    rcases List.mem_append.mp hmem with hmem | hmem
    · exact hu hmem
    · simp at hmem
  rw [hshape]
  unfold rustLines
  rw [splitIncNL_append hu13]
  simp only [List.map_cons]
  have hpiece : lineMapPiece ((u ++ [13]) ++ [10]) = u := by
    have : (u ++ [13]) ++ [10] = u ++ [13, 10] := by simp
    rw [this]
    exact lineMapPiece_crlf u
  rw [hpiece]

theorem rustLines_lone_cr {u v : List Nat} (hu : (10 : Nat) ∉ u)
    (hv : (10 : Nat) ∉ v) :
    rustLines (u ++ 13 :: v) = [u ++ 13 :: v] := by
  have hno : (10 : Nat) ∉ u ++ 13 :: v := by
    intro hmem
    rcases List.mem_append.mp hmem with hmem | hmem
    · exact hu hmem
    · rcases List.mem_cons.mp hmem with hmem | hmem
      · simp at hmem
      · exact hv hmem
  have hne : u ++ 13 :: v ≠ [] := by simp
  unfold rustLines
  rw [splitIncNL_no_nl hne hno]
  simp only [List.map_cons, List.map_nil]
  have hlast : lineMapPiece (u ++ 13 :: v) = u ++ 13 :: v := by
    apply lineMapPiece_not_nl
    rw [List.getLast?_append]
    cases hg : (13 :: v).getLast? with
    | none => exact absurd (List.getLast?_eq_none_iff.mp hg) (by simp)
    | some a =>
      have haMem : a ∈ 13 :: v := List.mem_of_mem_getLast? hg
      have ha10 : a ≠ 10 := by
        rcases List.mem_cons.mp haMem with h13 | hmem
        · omega
        · intro hcon
          subst hcon
          exact hv hmem
      simp [ha10]
  rw [hlast]

/-- C10: every file that fails the ASCII triage (and every file on the
non-ASCII-needle path) is split by `generic_utf8` over the longest valid
UTF-8 prefix of its bytes with standard `str::lines` semantics: a line ends
only at `\n`, one `\r` immediately before that `\n` is trimmed, and a `\r`
not adjacent to a `\n` neither terminates a line nor is removed — unlike
the byte-level iterator of the ASCII path, which treats a lone `\r` as a
terminator. -/
theorem c10_utf8_fallback_lines (B u v : List Nat)
    (hB : B.all (· ≤ 0x7F) = false)
    (hu : ∀ b ∈ u, isNLByte b = false)
    (hv : ∀ b ∈ v, isNLByte b = false) :
    asciiFileLines B = rustLines (B.take (utf8ValidUpTo B)) ∧
    utf8FileLines B = rustLines (B.take (utf8ValidUpTo B)) ∧
    ValidUtf8 (B.take (utf8ValidUpTo B)) ∧
    (∀ m, m ≤ B.length → ValidUtf8 (B.take m) → m ≤ utf8ValidUpTo B) ∧
    rustLines (u ++ 13 :: 10 :: v) = u :: rustLines v ∧
    rustLines (u ++ 13 :: v) = [u ++ 13 :: v] ∧
    byteLines (u ++ 13 :: v) = u :: byteLines v := by
  have hu10 : (10 : Nat) ∉ u := by
    intro hmem
    have := hu 10 hmem
    simp [isNLByte, NL] at this
  have hv10 : (10 : Nat) ∉ v := by
    intro hmem
    have := hv 10 hmem
    simp [isNLByte, NL] at this
  refine ⟨?_, rfl, utf8ValidUpTo_valid B,
    fun m h1 h2 => utf8ValidUpTo_maximal_aux m B m le_rfl h1 h2,
    rustLines_crlf hu10, rustLines_lone_cr hu10 hv10, ?_⟩
  · have hnone : ascii_from_bytes B = none := by
      simp [ascii_from_bytes, hB]
    simp [asciiFileLines, hnone, generic_utf8_lines]
  · have hm : memchr2 (u ++ 13 :: v) = some u.length :=
      memchr2_append_clean hu (by decide)
    rw [byteLines_of_some hm, List.take_left, List.drop_left]
    cases v with
    | nil => rfl
    | cons c t =>
      have hc10 : c ≠ 10 := by
        intro hcon
        subst hcon
        have := hv 10 (by simp)
        simp [isNLByte, NL] at this
      have hpair : isPair 13 c = false := by
        have hbeq : (c == 10) = false := by simpa using hc10
        simp [isPair, CR, NL, hbeq]
      simp [skip_newline, hpair]

/-- Witness for C10 at concrete inputs. -/
theorem c10_utf8_fallback_lines_witness :
    asciiFileLines [255, 97] =
      rustLines (([255, 97] : List Nat).take (utf8ValidUpTo [255, 97])) ∧
    rustLines ([97] ++ 13 :: 10 :: [98]) = [97] :: rustLines [98] ∧
    byteLines ([97] ++ 13 :: [98]) = [97] :: byteLines [98] := by
  have h := c10_utf8_fallback_lines [255, 97] [97] [98] (by decide) (by decide)
    (by decide)
  exact ⟨h.1, h.2.2.2.2.1, h.2.2.2.2.2.2⟩

end Fulf
